import Mathlib

/-!
Shallow embedding of the PaperLoom backend context-assembly core:
graph expansion (`src/backend/services/graph_service.py`), vector-store
synchronisation (`src/backend/services/vector_store.py`), and the chat
merge / insight / citation pipeline (`src/backend/routers/chat.py`).

Modelling conventions:
* Python dicts are association lists with replace-on-update semantics
  (`dictSet`, `dlookup`); Python sets are insertion-ordered
  duplicate-free lists.
* CPython iterates a `set` in an implementation-defined order (it
  depends on the per-process string hash seed), so every place the
  source iterates over a set the embedding applies an explicit ordering
  policy `ord : List String → List String`; an admissible policy is any
  permutation (`PermPolicy`).  Quantifying over all admissible policies
  over-approximates the real nondeterminism, and exhibiting two
  policies with different outcomes witnesses the order dependence.
* Machine integers are `Int`/`Nat`; the caps involved are small counts,
  and Python slicing `l[:k]` for `k ≥ 0` is `List.take`.
-/

namespace PaperLoom

/-- Association-list lookup, first binding wins (Python dict access). -/
def dlookup {α : Type} (k : String) : List (String × α) → Option α
  | [] => none
  | (k₁, v) :: d => if k = k₁ then some v else dlookup k d

/-- Python dict assignment `d[k] = v`: replace the value at the key when
it is present (keys are unique in a Python dict), otherwise append a new
binding, preserving insertion order. -/
def dictSet {α : Type} : List (String × α) → String → α → List (String × α)
  | [], k, v => [(k, v)]
  | (k₁, v₁) :: rest, k, v =>
    if k₁ = k then (k, v) :: rest else (k₁, v₁) :: dictSet rest k v

/-- Keys of an association list, in binding order. -/
def dkeys {α : Type} (d : List (String × α)) : List String :=
  d.map Prod.fst

/-- Python `set.add`: insert preserving insertion order, no duplicates. -/
def setAdd (s : List String) (x : String) : List String :=
  if x ∈ s then s else s ++ [x]

/-- Python `set(l)`: the distinct elements of `l` in first-occurrence
order (the contents of the set; iteration order is supplied separately
by an ordering policy). -/
def pySet (l : List String) : List String :=
  l.foldl setAdd []

/-- Python `str.strip()`: drop whitespace from both ends, modelled over
the character list (Python strings are sequences of code points). -/
def pyStrip (s : String) : String :=
  ⟨((s.data.dropWhile Char.isWhitespace).reverse.dropWhile
    Char.isWhitespace).reverse⟩

/-- Python `len(s)`: the number of code points. -/
def pyLen (s : String) : ℕ :=
  s.data.length

/-- Python `s[:n]` for `n ≥ 0`: the first `n` code points. -/
def pyTake (s : String) (n : ℕ) : String :=
  ⟨s.data.take n⟩

/-- An admissible set-iteration policy: any rearrangement of the set
contents.  CPython guarantees no more than this. -/
def PermPolicy (ord : List String → List String) : Prop :=
  ∀ l : List String, (ord l).Perm l

/-- An edge dict from the canvas payload; absent `source`/`target` keys
read as `""` (`edge.get("source", "")`). -/
structure Edge where
  source : String
  target : String
deriving DecidableEq

/-- Ensure the key exists and add `v` to its neighbor set
(`adjacency[k].add(v)` after the `if k not in adjacency` guard). -/
def adjAdd (adj : List (String × List String)) (k v : String) :
    List (String × List String) :=
  match dlookup k adj with
  | some s => dictSet adj k (setAdd s v)
  | none => adj ++ [(k, [v])]

/-- Build the undirected adjacency map from the edge list, skipping
edges with an empty endpoint (`if source and target`). -/
def buildAdjacency (edges : List Edge) : List (String × List String) :=
  edges.foldl
    (fun adj e =>
      if e.source ≠ "" ∧ e.target ≠ "" then
        adjAdd (adjAdd adj e.source e.target) e.target e.source
      else adj)
    []

/-- The inner neighbor loop of the BFS in `get_connected_nodes`: for
each not-yet-visited neighbor, add it to `visited` and to the next
level, returning early (`Sum.inr`) with `list(visited)[:max_nodes]` as
soon as `len(visited) >= max_nodes`. -/
def bfsNeighbors (ord : List String → List String) (maxNodes : ℕ)
    (visited next : List String) :
    List String → (List String × List String) ⊕ List String
  | [] => Sum.inl (visited, next)
  | n :: rest =>
    if n ∈ visited then bfsNeighbors ord maxNodes visited next rest
    else if maxNodes ≤ (visited ++ [n]).length then
      Sum.inr ((ord (visited ++ [n])).take maxNodes)
    else bfsNeighbors ord maxNodes (visited ++ [n]) (next ++ [n]) rest

/-- One BFS level: iterate over the current level (in policy order),
expanding each node through its neighbor set (in policy order). -/
def bfsLevel (adj : List (String × List String))
    (ord : List String → List String) (maxNodes : ℕ)
    (visited next : List String) :
    List String → (List String × List String) ⊕ List String
  | [] => Sum.inl (visited, next)
  | v :: rest =>
    match bfsNeighbors ord maxNodes visited next
        (ord ((dlookup v adj).getD [])) with
    | Sum.inr r => Sum.inr r
    | Sum.inl (visited₁, next₁) =>
      bfsLevel adj ord maxNodes visited₁ next₁ rest

/-- The `for _ in range(depth)` loop of `get_connected_nodes`,
breaking when a level discovers nothing new. -/
def bfsLoop (adj : List (String × List String))
    (ord : List String → List String) (maxNodes : ℕ) :
    ℕ → List String → List String → List String
  | 0, visited, _ => (ord visited).take maxNodes
  | d + 1, visited, current =>
    match bfsLevel adj ord maxNodes visited [] (ord current) with
    | Sum.inr r => r
    | Sum.inl (visited₁, next₁) =>
      if next₁ = [] then (ord visited₁).take maxNodes
      else bfsLoop adj ord maxNodes d visited₁ next₁

/-- `get_connected_nodes(node_ids, edges, depth, max_nodes)` from
`services/graph_service.py`: expand seed ids through undirected edges
for `depth` hops, capped at `max_nodes`.  `ord` is the set-iteration
policy (see the module docstring). -/
def getConnectedNodes (ord : List String → List String)
    (nodeIds : List String) (edges : List Edge) (depth : ℤ)
    (maxNodes : ℕ) : List String :=
  if depth ≤ 0 ∨ edges = [] then nodeIds.take maxNodes
  else
    bfsLoop (buildAdjacency edges) ord maxNodes depth.toNat
      (pySet nodeIds) (pySet nodeIds)

/-! ### Structural lemmas about the graph expander -/

theorem setAdd_nodup {s : List String} {x : String} (h : s.Nodup) :
    (setAdd s x).Nodup := by
  unfold setAdd
  split
  · exact h
  · next hx => simp [List.nodup_append, h, hx]

theorem pySet_nodup_aux (l acc : List String) (h : acc.Nodup) :
    (l.foldl setAdd acc).Nodup := by
  induction l generalizing acc with
  | nil => exact h
  | cons x rest ih => exact ih (setAdd acc x) (setAdd_nodup h)

theorem pySet_nodup (l : List String) : (pySet l).Nodup :=
  pySet_nodup_aux l [] List.nodup_nil

theorem append_singleton_nodup {l : List String} {x : String}
    (h : l.Nodup) (hx : x ∉ l) : (l ++ [x]).Nodup := by
  simp [List.nodup_append, h, hx]

theorem perm_take_nodup {ord : List String → List String}
    (hord : PermPolicy ord) {l : List String} (h : l.Nodup) (k : ℕ) :
    ((ord l).take k).Nodup :=
  (List.take_sublist k (ord l)).nodup ((hord l).nodup_iff.mpr h)

theorem bfsNeighbors_ok (ord : List String → List String)
    (hord : PermPolicy ord) (maxNodes : ℕ) (ns : List String) :
    ∀ visited next : List String, visited.Nodup →
      (∀ v₁ n₁, bfsNeighbors ord maxNodes visited next ns = Sum.inl (v₁, n₁) →
        v₁.Nodup) ∧
      (∀ r, bfsNeighbors ord maxNodes visited next ns = Sum.inr r →
        r.Nodup ∧ r.length ≤ maxNodes) := by
  induction ns with
  | nil =>
    intro visited next h
    refine ⟨fun v₁ n₁ he => ?_, fun r he => ?_⟩
    · simp only [bfsNeighbors, Sum.inl.injEq, Prod.mk.injEq] at he
      exact he.1 ▸ h
    · simp [bfsNeighbors] at he
  | cons n rest ih =>
    intro visited next h
    by_cases hn : n ∈ visited
    · simpa only [bfsNeighbors, if_pos hn] using ih visited next h
    · by_cases hm : maxNodes ≤ (visited ++ [n]).length
      · have hm₁ : maxNodes ≤ visited.length + 1 := by simpa using hm
        refine ⟨fun v₁ n₁ he => ?_, fun r he => ?_⟩
        · simp [bfsNeighbors, hn, hm₁] at he
        · simp only [bfsNeighbors, if_neg hn] at he
          rw [if_pos hm] at he
          simp only [Sum.inr.injEq] at he
          subst he
          exact ⟨perm_take_nodup hord (append_singleton_nodup h hn) _,
            List.length_take_le _ _⟩
      · have h₁ : (visited ++ [n]).Nodup := append_singleton_nodup h hn
        simpa only [bfsNeighbors, if_neg hn, if_neg hm] using
          ih (visited ++ [n]) (next ++ [n]) h₁
theorem bfsLevel_ok (adj : List (String × List String))
    (ord : List String → List String) (hord : PermPolicy ord)
    (maxNodes : ℕ) (cur : List String) :
    ∀ visited next : List String, visited.Nodup →
      (∀ v₁ n₁, bfsLevel adj ord maxNodes visited next cur = Sum.inl (v₁, n₁) →
        v₁.Nodup) ∧
      (∀ r, bfsLevel adj ord maxNodes visited next cur = Sum.inr r →
        r.Nodup ∧ r.length ≤ maxNodes) := by
  induction cur with
  | nil =>
    intro visited next h
    refine ⟨fun v₁ n₁ he => ?_, fun r he => ?_⟩
    · simp only [bfsLevel, Sum.inl.injEq, Prod.mk.injEq] at he
      exact he.1 ▸ h
    · simp [bfsLevel] at he
  | cons v rest ih =>
    intro visited next h
    constructor
    · intro v₁ n₁ he
      simp only [bfsLevel] at he
      revert he
      cases hnb : bfsNeighbors ord maxNodes visited next
          (ord ((dlookup v adj).getD [])) with
      | inr r₁ =>
        intro he
        simp at he
      | inl p =>
        intro he
        exact (ih p.1 p.2
          ((bfsNeighbors_ok ord hord maxNodes _ visited next h).1 p.1 p.2
            (by rw [hnb]))).1 v₁ n₁ he
    · intro r he
      simp only [bfsLevel] at he
      revert he
      cases hnb : bfsNeighbors ord maxNodes visited next
          (ord ((dlookup v adj).getD [])) with
      | inr r₁ =>
        intro he
        simp only [Sum.inr.injEq] at he
        subst he
        exact (bfsNeighbors_ok ord hord maxNodes _ visited next h).2 r₁ hnb
      | inl p =>
        intro he
        exact (ih p.1 p.2
          ((bfsNeighbors_ok ord hord maxNodes _ visited next h).1 p.1 p.2
            (by rw [hnb]))).2 r he

theorem bfsLoop_ok (adj : List (String × List String))
    (ord : List String → List String) (hord : PermPolicy ord)
    (maxNodes : ℕ) (fuel : ℕ) :
    ∀ visited current : List String, visited.Nodup →
      (bfsLoop adj ord maxNodes fuel visited current).Nodup ∧
      (bfsLoop adj ord maxNodes fuel visited current).length ≤ maxNodes := by
  induction fuel with
  | zero =>
    intro visited current h
    exact ⟨perm_take_nodup hord h _, List.length_take_le _ _⟩
  | succ d ih =>
    intro visited current h
    simp only [bfsLoop]
    cases hlv : bfsLevel adj ord maxNodes visited [] (ord current) with
    | inr r =>
      exact (bfsLevel_ok adj ord hord maxNodes _ visited [] h).2 r hlv
    | inl p =>
      have h₁ : p.1.Nodup :=
        (bfsLevel_ok adj ord hord maxNodes _ visited [] h).1 p.1 p.2
          (by rw [hlv])
      by_cases hnil : p.2 = []
      · simp only [hnil, if_pos rfl]
        exact ⟨perm_take_nodup hord h₁ _, List.length_take_le _ _⟩
      · simp only [if_neg hnil]
        exact ih p.1 p.2 h₁

/-! ### Claim theorems about the graph expander -/

/-- C8: for every seed list, edge list and cap, `get_connected_nodes`
with `depth ≤ 0` returns exactly the seed list truncated to the cap
regardless of edge content, and likewise an empty edge list returns the
seed list truncated to the cap for every depth. -/
theorem getConnectedNodes_trivial_cases (ord : List String → List String)
    (seeds : List String) (edges : List Edge) (depth : ℤ) (maxNodes : ℕ) :
    (depth ≤ 0 →
      getConnectedNodes ord seeds edges depth maxNodes = seeds.take maxNodes) ∧
    getConnectedNodes ord seeds [] depth maxNodes = seeds.take maxNodes := by
  constructor
  · intro hd
    unfold getConnectedNodes
    rw [if_pos (Or.inl hd)]
  · unfold getConnectedNodes
    rw [if_pos (Or.inr rfl)]

/-- Witness for C8 at concrete inputs: depth 0 with a nonempty edge
list, and depth 2 with no edges. -/
theorem getConnectedNodes_trivial_cases_witness :
    getConnectedNodes id ["a", "b", "c"] [⟨"a", "z"⟩] 0 2 = ["a", "b"] ∧
    getConnectedNodes id ["a", "b", "c"] [] 2 2 = ["a", "b"] :=
  ⟨by
    rw [(getConnectedNodes_trivial_cases id ["a", "b", "c"] [⟨"a", "z"⟩]
      0 2).1 (by decide)]
    decide,
   by
    rw [(getConnectedNodes_trivial_cases id ["a", "b", "c"] [] 2 2).2]
    decide⟩

/-- C5 counterexample: a duplicated seed id with an empty edge list is
returned verbatim (`list(node_ids)[:max_nodes]` copies the list), so the
result of `get_connected_nodes` can contain duplicate ids. -/
theorem getConnectedNodes_dup_counterexample :
    getConnectedNodes id ["a", "a"] [] 1 5 = ["a", "a"] ∧
    ¬ (getConnectedNodes id ["a", "a"] [] 1 5).Nodup := by
  constructor
  · decide
  · decide

theorem getConnectedNodes_nodup_le_aux (ord : List String → List String)
    (hord : PermPolicy ord) (seeds : List String) (edges : List Edge)
    (depth : ℤ) (maxNodes : ℕ) (hseeds : seeds.Nodup) :
    (getConnectedNodes ord seeds edges depth maxNodes).Nodup ∧
    (getConnectedNodes ord seeds edges depth maxNodes).length ≤ maxNodes := by
  unfold getConnectedNodes
  split
  · exact ⟨(List.take_sublist _ _).nodup hseeds, List.length_take_le _ _⟩
  · exact bfsLoop_ok (buildAdjacency edges) ord hord maxNodes depth.toNat
      (pySet seeds) (pySet seeds) (pySet_nodup seeds)

/-- C5 (amended): the list returned by `get_connected_nodes` never
exceeds `max_nodes` (for every seed list, edge list, depth and cap, and
every admissible set-iteration policy), and provided the seed list
itself has no duplicate ids, it contains no duplicate ids. -/
theorem getConnectedNodes_nodup_le (ord : List String → List String)
    (hord : PermPolicy ord) (seeds : List String) (edges : List Edge)
    (depth : ℤ) (maxNodes : ℕ) :
    (getConnectedNodes ord seeds edges depth maxNodes).length ≤ maxNodes ∧
    (seeds.Nodup → (getConnectedNodes ord seeds edges depth maxNodes).Nodup) := by
  constructor
  · unfold getConnectedNodes
    split
    · exact List.length_take_le _ _
    · exact (bfsLoop_ok (buildAdjacency edges) ord hord maxNodes depth.toNat
        (pySet seeds) (pySet seeds) (pySet_nodup seeds)).2
  · intro hseeds
    exact (getConnectedNodes_nodup_le_aux ord hord seeds edges depth
      maxNodes hseeds).1

/-- Witness for the amended C5 at a concrete input that takes the BFS
branch and hits the truncation cap. -/
theorem getConnectedNodes_nodup_le_witness :
    (getConnectedNodes id ["a", "b"] [⟨"a", "c"⟩, ⟨"c", "d"⟩] 2 3).length ≤ 3 ∧
    (getConnectedNodes id ["a", "b"] [⟨"a", "c"⟩, ⟨"c", "d"⟩] 2 3).Nodup :=
  have h := getConnectedNodes_nodup_le id (fun l => List.Perm.refl l)
    ["a", "b"] [⟨"a", "c"⟩, ⟨"c", "d"⟩] 2 3
  ⟨h.1, h.2 (by decide)⟩

/-- C4: graph expansion is not deterministic in the required sense: the
identity and reversal policies are both admissible set-iteration orders
(CPython fixes neither, as the order depends on the per-process string
hash seed), yet they disagree on which neighbor of `a` survives the
`max_nodes = 2` truncation for identical seeds, edges, depth and cap. -/
theorem getConnectedNodes_order_dependent :
    PermPolicy (id : List String → List String) ∧
    PermPolicy (List.reverse : List String → List String) ∧
    getConnectedNodes id ["a"] [⟨"a", "b"⟩, ⟨"a", "c"⟩] 1 2 = ["a", "b"] ∧
    getConnectedNodes List.reverse ["a"] [⟨"a", "b"⟩, ⟨"a", "c"⟩] 1 2 =
      ["c", "a"] ∧
    getConnectedNodes id ["a"] [⟨"a", "b"⟩, ⟨"a", "c"⟩] 1 2 ≠
      getConnectedNodes List.reverse ["a"] [⟨"a", "b"⟩, ⟨"a", "c"⟩] 1 2 :=
  ⟨fun l => List.Perm.refl l, fun l => List.reverse_perm l,
   by decide, by decide, by decide⟩

/-! ### Vector store (`services/vector_store.py`)

The ChromaDB collection is a single id-keyed table; each entry carries
the project id, the embedded document, source metadata and the content
hash.  `_content_hash` (the first 16 hex characters of an md5 digest) is
modelled as an abstract parameter `hash : String → String`; no
injectivity is assumed. -/

/-- One entry of the `snippets` collection, keyed globally by node id. -/
structure StoreEntry where
  projectId : String
  document : String
  sourceDocument : String
  pageIndex : ℤ
  contentHash : String
deriving DecidableEq

/-- The collection: an id-keyed table. -/
abbrev Store : Type := List (String × StoreEntry)

/-- A node dict supplied to `sync_project_nodes`; absent keys read as
their `get` defaults. -/
structure PyIndexNode where
  id : String
  content : String
  sourceDocument : String
  pageIndex : ℤ
deriving DecidableEq

/-- `upsert_node`: skip empty or whitespace-only content, otherwise
write the embedding entry under the node id. -/
def upsertNode (hash : String → String) (store : Store)
    (nodeId content projectId sourceDocument : String) (pageIndex : ℤ) :
    Store :=
  if content = "" ∨ pyStrip content = "" then store
  else dictSet store nodeId
    ⟨projectId, content, sourceDocument, pageIndex, hash content⟩

/-- The guard of the sync loop: `if node_id and content and
content.strip()`. -/
def syncConsidered (n : PyIndexNode) : Bool :=
  n.id ≠ "" ∧ n.content ≠ "" ∧ pyStrip n.content ≠ ""

/-- The ids the sync loop considers, in list order. -/
def consideredIds (nodes : List PyIndexNode) : List String :=
  (nodes.filter syncConsidered).map PyIndexNode.id

/-- The running state of the sync loop: `current_ids`, `updated_count`
and the collection being mutated. -/
structure SyncState where
  currentIds : List String
  updatedCount : ℕ
  store : Store
deriving DecidableEq

/-- The per-project snapshot `node_id -> content_hash` taken at the
start of `sync_project_nodes`. -/
def hashesOf (store : Store) (projectId : String) :
    List (String × String) :=
  (store.filter (fun e => e.2.projectId = projectId)).map
    (fun e => (e.1, e.2.contentHash))

/-- One iteration of the sync loop body. -/
def syncStep (hash : String → String) (projectId : String)
    (existingHashes : List (String × String)) (st : SyncState)
    (n : PyIndexNode) : SyncState :=
  if syncConsidered n then
    if hash n.content ≠ (dlookup n.id existingHashes).getD "" then
      ⟨setAdd st.currentIds n.id, st.updatedCount + 1,
        upsertNode hash st.store n.id n.content projectId
          n.sourceDocument n.pageIndex⟩
    else ⟨setAdd st.currentIds n.id, st.updatedCount, st.store⟩
  else st

/-- The ids of the entries currently indexed for a project
(`existing["ids"]`). -/
def existingIdsOf (store : Store) (projectId : String) : List String :=
  (store.filter (fun e => e.2.projectId = projectId)).map Prod.fst

/-- `sync_project_nodes(project_id, nodes)` acting on a store state:
snapshot the per-project hashes, upsert new or changed nodes, delete
entries whose ids are no longer supplied, and return the new store with
the number of upserts performed. -/
def syncProjectNodes (hash : String → String) (projectId : String)
    (nodes : List PyIndexNode) (store : Store) : Store × ℕ :=
  let res := nodes.foldl (syncStep hash projectId (hashesOf store projectId))
    ⟨[], 0, store⟩
  let removedIds :=
    (existingIdsOf store projectId).filter (fun i => i ∉ res.currentIds)
  (if removedIds ≠ [] then
      res.store.filter (fun e => e.1 ∉ removedIds)
    else res.store,
   res.updatedCount)

/-- Well-formedness of the modelled collection: ids key the table, so no
id occurs twice (ChromaDB guarantees this by construction). -/
def StoreWF (store : Store) : Prop :=
  (store.map Prod.fst).Nodup

/-! ### Association-list lemmas -/

theorem dlookup_dictSet_self {α : Type} (d : List (String × α))
    (k : String) (v : α) : dlookup k (dictSet d k v) = some v := by
  induction d with
  | nil => simp [dictSet, dlookup]
  | cons p rest ih =>
    by_cases hp : p.1 = k
    · simp [dictSet, hp, dlookup]
    · have hne : ¬ k = p.1 := fun h => hp h.symm
      simp [dictSet, hp, dlookup, hne, ih]

theorem dlookup_dictSet_ne {α : Type} (d : List (String × α))
    (k k₁ : String) (v : α) (h : k₁ ≠ k) :
    dlookup k₁ (dictSet d k v) = dlookup k₁ d := by
  induction d with
  | nil => simp [dictSet, dlookup, h]
  | cons p rest ih =>
    by_cases hp : p.1 = k
    · have hne : ¬ k₁ = p.1 := fun h₁ => h (h₁.trans hp)
      simp [dictSet, hp, dlookup, hne, h]
    · by_cases hq : k₁ = p.1
      · simp [dictSet, hp, dlookup, hq]
      · simp [dictSet, hp, dlookup, hq, ih]

theorem dlookup_eq_none {α : Type} (d : List (String × α)) (k : String) :
    dlookup k d = none ↔ k ∉ d.map Prod.fst := by
  induction d with
  | nil => simp [dlookup]
  | cons p rest ih =>
    by_cases hp : k = p.1
    · simp [dlookup, hp]
    · simp [dlookup, hp, ih]

theorem dlookup_isSome {α : Type} (d : List (String × α)) (k : String) :
    (dlookup k d).isSome ↔ k ∈ d.map Prod.fst := by
  induction d with
  | nil => simp [dlookup]
  | cons p rest ih =>
    by_cases hp : k = p.1
    · simp [dlookup, hp]
    · simp [dlookup, hp, ih]

theorem dictSet_map_fst {α : Type} (d : List (String × α)) (k : String)
    (v : α) :
    (dictSet d k v).map Prod.fst =
      if k ∈ d.map Prod.fst then d.map Prod.fst
      else d.map Prod.fst ++ [k] := by
  induction d with
  | nil => simp [dictSet]
  | cons p rest ih =>
    by_cases hp : p.1 = k
    · simp [dictSet, hp]
    · have hne : ¬ k = p.1 := fun h => hp h.symm
      by_cases hk : k ∈ rest.map Prod.fst
      · simp [dictSet, hp, ih, hk, hne]
      · simp [dictSet, hp, ih, hk, hne]

theorem dictSet_wf {α : Type} {d : List (String × α)}
    (h : (d.map Prod.fst).Nodup) (k : String) (v : α) :
    ((dictSet d k v).map Prod.fst).Nodup := by
  rw [dictSet_map_fst]
  split
  · exact h
  · next hk => simp [List.nodup_append, h, hk]

theorem dlookup_filter_keytrue {α : Type} (q : String → Bool)
    (d : List (String × α)) (k : String) (hk : q k = true) :
    dlookup k (d.filter (fun e => q e.1)) = dlookup k d := by
  induction d with
  | nil => simp
  | cons p rest ih =>
    by_cases hp : k = p.1
    · subst hp
      simp [List.filter_cons, hk, dlookup]
    · cases hqp : q p.1 with
      | true => simp [List.filter_cons, hqp, dlookup, hp, ih]
      | false => simp [List.filter_cons, hqp, dlookup, hp, ih]

theorem dlookup_filter_keyfalse {α : Type} (q : String → Bool)
    (d : List (String × α)) (k : String) (hk : q k = false) :
    dlookup k (d.filter (fun e => q e.1)) = none := by
  induction d with
  | nil => simp [dlookup]
  | cons p rest ih =>
    by_cases hp : k = p.1
    · subst hp
      simp [List.filter_cons, hk, dlookup, ih]
    · cases hqp : q p.1 with
      | true => simp [List.filter_cons, hqp, dlookup, hp, ih]
      | false => simp [List.filter_cons, hqp, dlookup, hp, ih]

/-! ### Lemmas about the synchronizer -/

theorem mem_setAdd {s : List String} {x y : String} :
    x ∈ setAdd s y ↔ x ∈ s ∨ x = y := by
  unfold setAdd
  split
  · next hy =>
    constructor
    · exact Or.inl
    · rintro (h | rfl)
      · exact h
      · exact hy
  · simp

theorem consideredIds_cons (n : PyIndexNode) (rest : List PyIndexNode) :
    consideredIds (n :: rest) =
      if syncConsidered n then n.id :: consideredIds rest
      else consideredIds rest := by
  by_cases hc : syncConsidered n
  · simp [consideredIds, List.filter_cons, hc]
  · simp [consideredIds, List.filter_cons, hc]

theorem mem_consideredIds {nodes : List PyIndexNode} {i : String} :
    i ∈ consideredIds nodes ↔
      ∃ n, n ∈ nodes ∧ syncConsidered n = true ∧ n.id = i := by
  simp only [consideredIds, List.mem_map, List.mem_filter]
  constructor
  · rintro ⟨n, ⟨hn, hc⟩, hi⟩
    exact ⟨n, hn, hc, hi⟩
  · rintro ⟨n, hn, hc, hi⟩
    exact ⟨n, ⟨hn, hc⟩, hi⟩

theorem upsertNode_considered (hash : String → String) (store : Store)
    (n : PyIndexNode) (p : String) (hc : syncConsidered n = true) :
    upsertNode hash store n.id n.content p n.sourceDocument n.pageIndex =
      dictSet store n.id
        ⟨p, n.content, n.sourceDocument, n.pageIndex, hash n.content⟩ := by
  simp only [syncConsidered, ne_eq, decide_eq_true_eq] at hc
  simp [upsertNode, hc.2.1, hc.2.2]

theorem upsertNode_wf (hash : String → String) {store : Store}
    (hwf : StoreWF store) (nodeId content p src : String) (pg : ℤ) :
    StoreWF (upsertNode hash store nodeId content p src pg) := by
  unfold upsertNode
  split
  · exact hwf
  · exact dictSet_wf hwf _ _

theorem syncStep_wf (hash : String → String) (p : String)
    (E : List (String × String)) {st : SyncState} (hwf : StoreWF st.store)
    (n : PyIndexNode) : StoreWF (syncStep hash p E st n).store := by
  unfold syncStep
  split
  · split
    · exact upsertNode_wf hash hwf _ _ _ _ _
    · exact hwf
  · exact hwf

theorem syncFold_wf (hash : String → String) (p : String)
    (E : List (String × String)) (nodes : List PyIndexNode) :
    ∀ st : SyncState, StoreWF st.store →
      StoreWF (nodes.foldl (syncStep hash p E) st).store := by
  induction nodes with
  | nil => exact fun st h => h
  | cons n rest ih =>
    intro st h
    exact ih _ (syncStep_wf hash p E h n)

theorem syncFold_cur_mono (hash : String → String) (p : String)
    (E : List (String × String)) (nodes : List PyIndexNode) :
    ∀ (st : SyncState) (x : String), x ∈ st.currentIds →
      x ∈ (nodes.foldl (syncStep hash p E) st).currentIds := by
  induction nodes with
  | nil => exact fun st x h => h
  | cons n rest ih =>
    intro st x h
    apply ih
    unfold syncStep
    split
    · split
      · exact mem_setAdd.mpr (Or.inl h)
      · exact mem_setAdd.mpr (Or.inl h)
    · exact h

theorem syncFold_cur_mem (hash : String → String) (p : String)
    (E : List (String × String)) (nodes : List PyIndexNode) :
    ∀ (st : SyncState) (n : PyIndexNode), n ∈ nodes →
      syncConsidered n = true →
      n.id ∈ (nodes.foldl (syncStep hash p E) st).currentIds := by
  induction nodes with
  | nil => intro st n h; exact absurd h (List.not_mem_nil n)
  | cons m rest ih =>
    intro st n hn hc
    rcases List.mem_cons.mp hn with rfl | hr
    · rw [List.foldl_cons]
      apply syncFold_cur_mono hash p E rest
      unfold syncStep
      rw [if_pos hc]
      split
      · exact mem_setAdd.mpr (Or.inr rfl)
      · exact mem_setAdd.mpr (Or.inr rfl)
    · exact ih _ n hr hc

theorem syncFold_cur_sub (hash : String → String) (p : String)
    (E : List (String × String)) (nodes : List PyIndexNode) :
    ∀ (st : SyncState) (x : String),
      x ∈ (nodes.foldl (syncStep hash p E) st).currentIds →
      x ∈ st.currentIds ∨ x ∈ consideredIds nodes := by
  induction nodes with
  | nil => exact fun st x h => Or.inl h
  | cons n rest ih =>
    intro st x h
    rcases ih _ x h with h₁ | h₁
    · revert h₁
      unfold syncStep
      by_cases hc : syncConsidered n
      · rw [if_pos hc]
        rw [consideredIds_cons, if_pos hc]
        split
        · intro h₁
          rcases mem_setAdd.mp h₁ with h₂ | rfl
          · exact Or.inl h₂
          · exact Or.inr (List.mem_cons_self _ _)
        · intro h₁
          rcases mem_setAdd.mp h₁ with h₂ | rfl
          · exact Or.inl h₂
          · exact Or.inr (List.mem_cons_self _ _)
      · rw [if_neg hc]
        exact Or.inl
    · rw [consideredIds_cons]
      split
      · exact Or.inr (List.mem_cons_of_mem _ h₁)
      · exact Or.inr h₁

theorem syncFold_count_stable (hash : String → String) (p : String)
    (E : List (String × String)) (nodes : List PyIndexNode) :
    ∀ st : SyncState,
      (∀ n ∈ nodes, syncConsidered n = true →
        hash n.content = (dlookup n.id E).getD "") →
      (nodes.foldl (syncStep hash p E) st).updatedCount = st.updatedCount := by
  induction nodes with
  | nil => exact fun st _ => rfl
  | cons n rest ih =>
    intro st h
    have hrest : ∀ m ∈ rest, syncConsidered m = true →
        hash m.content = (dlookup m.id E).getD "" :=
      fun m hm => h m (List.mem_cons_of_mem n hm)
    rw [List.foldl_cons, ih _ hrest]
    unfold syncStep
    by_cases hc : syncConsidered n
    · rw [if_pos hc, if_neg (by simpa using h n (List.mem_cons_self n rest) hc)]
    · rw [if_neg hc]

theorem hashesOf_map_fst (s : Store) (p : String) :
    (hashesOf s p).map Prod.fst = existingIdsOf s p := by
  simp only [hashesOf, existingIdsOf, List.map_map]
  rfl

theorem storeWF_tail {q : String × StoreEntry} {rest : Store}
    (hwf : StoreWF (q :: rest)) : StoreWF rest := by
  unfold StoreWF at *
  exact (List.nodup_cons.mp (by simpa using hwf)).2

theorem hashesOf_cons (q : String × StoreEntry) (rest : Store)
    (p : String) :
    hashesOf (q :: rest) p =
      if q.2.projectId = p then (q.1, q.2.contentHash) :: hashesOf rest p
      else hashesOf rest p := by
  by_cases hp : q.2.projectId = p
  · simp [hashesOf, List.filter_cons, hp]
  · simp [hashesOf, List.filter_cons, hp]

theorem hashesOf_dlookup (s : Store) (p : String) (hwf : StoreWF s)
    (i : String) :
    dlookup i (hashesOf s p) =
      (dlookup i s).bind
        (fun e => if e.projectId = p then some e.contentHash else none) := by
  induction s with
  | nil => simp [hashesOf, dlookup]
  | cons q rest ih =>
    have hwf₁ : StoreWF rest := storeWF_tail hwf
    rw [hashesOf_cons]
    by_cases hp : q.2.projectId = p
    · rw [if_pos hp]
      by_cases hi : i = q.1
      · subst hi
        simp [dlookup, hp]
      · simp [dlookup, hi, ih hwf₁]
    · rw [if_neg hp]
      by_cases hi : i = q.1
      · subst hi
        have hnotin : q.1 ∉ rest.map Prod.fst :=
          (List.nodup_cons.mp (by simpa [StoreWF] using hwf)).1
        have hnone : dlookup q.1 (hashesOf rest p) = none := by
          rw [dlookup_eq_none, hashesOf_map_fst]
          intro hmem
          simp only [existingIdsOf] at hmem
          rcases List.mem_map.mp hmem with ⟨e, he, hei⟩
          exact hnotin (List.mem_map.mpr ⟨e, List.mem_of_mem_filter he, hei⟩)
        simp [dlookup, hp, hnone]
      · simp [dlookup, hi, ih hwf₁]

theorem mem_existingIdsOf (s : Store) (p : String) (hwf : StoreWF s)
    (i : String) :
    i ∈ existingIdsOf s p ↔
      ∃ e, dlookup i s = some e ∧ e.projectId = p := by
  rw [← hashesOf_map_fst, ← dlookup_isSome, hashesOf_dlookup s p hwf]
  cases dlookup i s with
  | none => simp
  | some e =>
    by_cases hp : e.projectId = p
    · simp [hp]
    · simp [hp]

/-- Characterization of the store after the sync loop at a fixed id:
either every considered supplied node with that id was hash-skipped and
the entry is untouched, or the entry is the upsert of some considered
supplied node with that id. -/
theorem syncFold_store_char (hash : String → String) (p : String)
    (E : List (String × String)) (nodes : List PyIndexNode) :
    ∀ (st : SyncState) (i : String),
      (dlookup i (nodes.foldl (syncStep hash p E) st).store =
          dlookup i st.store ∧
        ∀ n ∈ nodes, syncConsidered n = true → n.id = i →
          hash n.content = (dlookup i E).getD "") ∨
      (∃ n, n ∈ nodes ∧ syncConsidered n = true ∧ n.id = i ∧
        dlookup i (nodes.foldl (syncStep hash p E) st).store =
          some ⟨p, n.content, n.sourceDocument, n.pageIndex,
            hash n.content⟩) := by
  induction nodes with
  | nil =>
    intro st i
    exact Or.inl ⟨rfl, by simp⟩
  | cons m rest ih =>
    intro st i
    rw [List.foldl_cons]
    by_cases hc : syncConsidered m
    · by_cases hm : m.id = i
      · subst hm
        by_cases hu : hash m.content ≠ (dlookup m.id E).getD ""
        · -- upsert branch: the entry at this id is now the upsert of m
          have hstep : (syncStep hash p E st m).store =
              dictSet st.store m.id
                ⟨p, m.content, m.sourceDocument, m.pageIndex,
                  hash m.content⟩ := by
            unfold syncStep
            rw [if_pos hc, if_pos hu, upsertNode_considered hash _ _ _ hc]
          rcases ih (syncStep hash p E st m) m.id with ⟨h₁, _⟩ |
            ⟨n, hn, hnc, hni, h₁⟩
          · refine Or.inr ⟨m, List.mem_cons_self m rest, hc, rfl, ?_⟩
            rw [h₁, hstep]
            exact dlookup_dictSet_self st.store m.id _
          · exact Or.inr ⟨n, List.mem_cons_of_mem m hn, hnc, hni, h₁⟩
        · -- skip branch: store untouched by this iteration
          rw [not_not] at hu
          have hstep : (syncStep hash p E st m).store = st.store := by
            unfold syncStep
            rw [if_pos hc, if_neg (by simpa using hu)]
          rcases ih (syncStep hash p E st m) m.id with ⟨h₁, h₂⟩ |
            ⟨n, hn, hnc, hni, h₁⟩
          · refine Or.inl ⟨by rw [h₁, hstep], ?_⟩
            intro n hn hnc hni
            rcases List.mem_cons.mp hn with rfl | hr
            · rw [← hni] at hu ⊢
              exact hu
            · exact h₂ n hr hnc hni
          · exact Or.inr ⟨n, List.mem_cons_of_mem m hn, hnc, hni, h₁⟩
      · -- a considered node with a different id never touches the entry at i
        have hstep : dlookup i (syncStep hash p E st m).store =
            dlookup i st.store := by
          unfold syncStep
          rw [if_pos hc]
          split
          · rw [upsertNode_considered hash _ _ _ hc]
            exact dlookup_dictSet_ne st.store m.id i _ (fun h => hm h.symm)
          · rfl
        rcases ih (syncStep hash p E st m) i with ⟨h₁, h₂⟩ | ⟨n, hn, hnc, hni, h₁⟩
        · refine Or.inl ⟨by rw [h₁, hstep], ?_⟩
          intro n hn hnc hni
          rcases List.mem_cons.mp hn with rfl | hr
          · exact absurd hni hm
          · exact h₂ n hr hnc hni
        · exact Or.inr ⟨n, List.mem_cons_of_mem m hn, hnc, hni, h₁⟩
    · -- not considered: the state is unchanged
      have hstep : syncStep hash p E st m = st := by
        unfold syncStep
        rw [if_neg hc]
      rcases ih (syncStep hash p E st m) i with ⟨h₁, h₂⟩ | ⟨n, hn, hnc, hni, h₁⟩
      · refine Or.inl ⟨by rw [h₁, hstep], ?_⟩
        intro n hn hnc hni
        rcases List.mem_cons.mp hn with rfl | hr
        · exact absurd hnc (by simpa using hc)
        · exact h₂ n hr hnc hni
      · exact Or.inr ⟨n, List.mem_cons_of_mem m hn, hnc, hni, h₁⟩

theorem syncProjectNodes_snd (hash : String → String) (p : String)
    (nodes : List PyIndexNode) (store₀ : Store) :
    (syncProjectNodes hash p nodes store₀).2 =
      (nodes.foldl (syncStep hash p (hashesOf store₀ p))
        ⟨[], 0, store₀⟩).updatedCount := rfl

theorem syncProjectNodes_fst_dlookup (hash : String → String) (p : String)
    (nodes : List PyIndexNode) (store₀ : Store) (i : String) :
    dlookup i (syncProjectNodes hash p nodes store₀).1 =
      if i ∈ existingIdsOf store₀ p ∧
          i ∉ (nodes.foldl (syncStep hash p (hashesOf store₀ p))
            ⟨[], 0, store₀⟩).currentIds then none
      else dlookup i (nodes.foldl (syncStep hash p (hashesOf store₀ p))
        ⟨[], 0, store₀⟩).store := by
  unfold syncProjectNodes
  simp only []
  set F := nodes.foldl (syncStep hash p (hashesOf store₀ p)) ⟨[], 0, store₀⟩
  set removed := (existingIdsOf store₀ p).filter (fun i => i ∉ F.currentIds)
    with hrem
  have hmem : ∀ x : String, x ∈ removed ↔
      x ∈ existingIdsOf store₀ p ∧ x ∉ F.currentIds := by
    intro x
    rw [hrem, List.mem_filter]
    simp
  by_cases hi : i ∈ existingIdsOf store₀ p ∧ i ∉ F.currentIds
  · rw [if_pos hi]
    have hir : i ∈ removed := (hmem i).mpr hi
    have hne : removed ≠ [] := by
      intro h
      rw [h] at hir
      exact List.not_mem_nil i hir
    rw [if_pos hne]
    exact dlookup_filter_keyfalse (fun x => decide (x ∉ removed)) F.store i
      (by simp [hir])
  · rw [if_neg hi]
    have hir : i ∉ removed := fun h => hi ((hmem i).mp h)
    by_cases hne : removed ≠ []
    · rw [if_pos hne]
      exact dlookup_filter_keytrue (fun x => decide (x ∉ removed)) F.store i
        (by simp [hir])
    · rw [if_neg hne]

theorem syncProjectNodes_wf (hash : String → String) (p : String)
    (nodes : List PyIndexNode) (store₀ : Store) (hwf : StoreWF store₀) :
    StoreWF (syncProjectNodes hash p nodes store₀).1 := by
  unfold syncProjectNodes
  simp only []
  have hF : StoreWF (nodes.foldl (syncStep hash p (hashesOf store₀ p))
      ⟨[], 0, store₀⟩).store :=
    syncFold_wf hash p (hashesOf store₀ p) nodes ⟨[], 0, store₀⟩ hwf
  split
  · exact ((List.filter_sublist _).map Prod.fst).nodup hF
  · exact hF

/-- C3 counterexample: two supplied nodes sharing the id `a` with
different contents make every call re-embed the first of them, so the
second call with the identical list performs one upsert, not zero. -/
theorem sync_second_call_counterexample :
    (syncProjectNodes (fun s => "#" ++ s) "p"
      [⟨"a", "x", "", 0⟩, ⟨"a", "y", "", 0⟩]
      (syncProjectNodes (fun s => "#" ++ s) "p"
        [⟨"a", "x", "", 0⟩, ⟨"a", "y", "", 0⟩] []).1).2 = 1 := by
  decide

/-- C3 (amended): provided no id occurs twice among the supplied nodes
that pass the sync guard (non-empty id, non-whitespace content) — the
data model guarantees ids are unique within a project — calling
`sync_project_nodes` twice in a row with the same node list performs
zero upserts on the second call, for any well-formed starting store. -/
theorem sync_second_call_zero (hash : String → String) (p : String)
    (nodes : List PyIndexNode) (store₀ : Store) (hwf : StoreWF store₀)
    (hnd : (consideredIds nodes).Nodup) :
    (syncProjectNodes hash p nodes
      (syncProjectNodes hash p nodes store₀).1).2 = 0 := by
  set store₁ := (syncProjectNodes hash p nodes store₀).1 with hstore₁
  have hwf₁ : StoreWF store₁ := syncProjectNodes_wf hash p nodes store₀ hwf
  rw [syncProjectNodes_snd]
  apply syncFold_count_stable
  intro n hn hc
  rw [hashesOf_dlookup store₁ p hwf₁]
  have hcur : n.id ∈ (nodes.foldl (syncStep hash p (hashesOf store₀ p))
      ⟨[], 0, store₀⟩).currentIds :=
    syncFold_cur_mem hash p (hashesOf store₀ p) nodes ⟨[], 0, store₀⟩ n hn hc
  have hlook : dlookup n.id store₁ =
      dlookup n.id (nodes.foldl (syncStep hash p (hashesOf store₀ p))
        ⟨[], 0, store₀⟩).store := by
    rw [hstore₁, syncProjectNodes_fst_dlookup]
    rw [if_neg (fun h => h.2 hcur)]
  rcases syncFold_store_char hash p (hashesOf store₀ p) nodes
      ⟨[], 0, store₀⟩ n.id with ⟨h₁, h₂⟩ | ⟨n₁, hn₁, hc₁, hid₁, h₁⟩
  · have hskip := h₂ n hn hc rfl
    rw [hlook, h₁]
    show hash n.content = ((dlookup n.id store₀).bind _).getD ""
    rw [← hashesOf_dlookup store₀ p hwf]
    exact hskip
  · have hn₂ : n₁ ∈ nodes.filter syncConsidered := List.mem_filter.mpr ⟨hn₁, hc₁⟩
    have hn₃ : n ∈ nodes.filter syncConsidered := List.mem_filter.mpr ⟨hn, hc⟩
    have heq : n₁ = n :=
      List.inj_on_of_nodup_map hnd hn₂ hn₃ hid₁
    subst heq
    rw [hlook, h₁]
    simp

/-- Witness for the amended C3: a two-node list with distinct ids,
synced twice from the empty store; the second call reports zero
upserts. -/
theorem sync_second_call_zero_witness :
    (syncProjectNodes (fun s => "#" ++ s) "p"
      [⟨"a", "x", "", 0⟩, ⟨"b", "hello", "doc", 1⟩]
      (syncProjectNodes (fun s => "#" ++ s) "p"
        [⟨"a", "x", "", 0⟩, ⟨"b", "hello", "doc", 1⟩] []).1).2 = 0 :=
  sync_second_call_zero (fun s => "#" ++ s) "p"
    [⟨"a", "x", "", 0⟩, ⟨"b", "hello", "doc", 1⟩] []
    (by unfold StoreWF; exact List.nodup_nil) (by decide)

/-- C9: after `sync_project_nodes(project_id, nodes)` returns, the index
entries carrying that project id are exactly the supplied nodes that
pass the sync guard (non-empty id, non-whitespace content); in
particular a node that remains in the supplied list but whose content is
now empty or whitespace-only has its existing entry deleted.  The
hypothesis on `hash` reflects that md5 hex digests are never empty. -/
theorem sync_entries_exactly (hash : String → String)
    (hh : ∀ c, hash c ≠ "") (p : String) (nodes : List PyIndexNode)
    (store₀ : Store) (hwf : StoreWF store₀) :
    (∀ i : String,
      (∃ e, dlookup i (syncProjectNodes hash p nodes store₀).1 = some e ∧
        e.projectId = p) ↔ i ∈ consideredIds nodes) ∧
    (∀ i : String, i ∉ consideredIds nodes →
      (∃ e, dlookup i store₀ = some e ∧ e.projectId = p) →
      dlookup i (syncProjectNodes hash p nodes store₀).1 = none) := by
  have hcursub : ∀ i : String,
      i ∈ (nodes.foldl (syncStep hash p (hashesOf store₀ p))
        ⟨[], 0, store₀⟩).currentIds → i ∈ consideredIds nodes := by
    intro i hi
    rcases syncFold_cur_sub hash p (hashesOf store₀ p) nodes
        ⟨[], 0, store₀⟩ i hi with h | h
    · exact absurd h (List.not_mem_nil i)
    · exact h
  have hdel : ∀ i : String, i ∉ consideredIds nodes →
      (∃ e, dlookup i store₀ = some e ∧ e.projectId = p) →
      dlookup i (syncProjectNodes hash p nodes store₀).1 = none := by
    intro i hic ⟨e, he, hep⟩
    rw [syncProjectNodes_fst_dlookup]
    rw [if_pos ⟨(mem_existingIdsOf store₀ p hwf i).mpr ⟨e, he, hep⟩,
      fun h => hic (hcursub i h)⟩]
  refine ⟨fun i => ⟨?_, ?_⟩, hdel⟩
  · -- a surviving entry with the project id comes from a considered node
    rintro ⟨e, he, hep⟩
    by_contra hic
    rw [syncProjectNodes_fst_dlookup] at he
    by_cases hcond : i ∈ existingIdsOf store₀ p ∧
        i ∉ (nodes.foldl (syncStep hash p (hashesOf store₀ p))
          ⟨[], 0, store₀⟩).currentIds
    · rw [if_pos hcond] at he
      exact Option.noConfusion he
    · rw [if_neg hcond] at he
      rcases syncFold_store_char hash p (hashesOf store₀ p) nodes
          ⟨[], 0, store₀⟩ i with ⟨h₁, _⟩ | ⟨n, hn, hnc, hni, h₁⟩
      · rw [h₁] at he
        have hex : i ∈ existingIdsOf store₀ p :=
          (mem_existingIdsOf store₀ p hwf i).mpr ⟨e, he, hep⟩
        have hcur : i ∈ (nodes.foldl (syncStep hash p (hashesOf store₀ p))
            ⟨[], 0, store₀⟩).currentIds := by
          by_contra hc
          exact hcond ⟨hex, hc⟩
        exact hic (hcursub i hcur)
      · exact hic (mem_consideredIds.mpr ⟨n, hn, hnc, hni⟩)
  · -- every considered id survives with a project entry
    intro hic
    rcases mem_consideredIds.mp hic with ⟨n, hn, hnc, hni⟩
    have hcur : i ∈ (nodes.foldl (syncStep hash p (hashesOf store₀ p))
        ⟨[], 0, store₀⟩).currentIds :=
      hni ▸ syncFold_cur_mem hash p (hashesOf store₀ p) nodes
        ⟨[], 0, store₀⟩ n hn hnc
    have hcond : ¬ (i ∈ existingIdsOf store₀ p ∧
        i ∉ (nodes.foldl (syncStep hash p (hashesOf store₀ p))
          ⟨[], 0, store₀⟩).currentIds) := fun h => h.2 hcur
    rcases syncFold_store_char hash p (hashesOf store₀ p) nodes
        ⟨[], 0, store₀⟩ i with ⟨h₁, h₂⟩ | ⟨n₁, hn₁, hnc₁, hni₁, h₁⟩
    · have hskip := h₂ n hn hnc hni
      have hne : (dlookup i (hashesOf store₀ p)).getD "" ≠ "" := by
        rw [← hskip]
        exact hh n.content
      cases hE : dlookup i (hashesOf store₀ p) with
      | none => exact absurd (by rw [hE]; rfl) hne
      | some h₀ =>
        rw [hashesOf_dlookup store₀ p hwf] at hE
        cases hs : dlookup i store₀ with
        | none =>
          rw [hs] at hE
          exact Option.noConfusion hE
        | some e =>
          rw [hs] at hE
          by_cases hps : e.projectId = p
          · refine ⟨e, ?_, hps⟩
            rw [syncProjectNodes_fst_dlookup, if_neg hcond, h₁]
            exact hs
          · simp [hps] at hE
    · exact ⟨⟨p, n₁.content, n₁.sourceDocument, n₁.pageIndex,
        hash n₁.content⟩,
        by rw [syncProjectNodes_fst_dlookup, if_neg hcond]; exact h₁, rfl⟩

/-- Witness for C9: syncing a list whose node `b` turned whitespace-only
deletes the stale entry for `b`, while the considered node `a` ends up
indexed. -/
theorem sync_entries_exactly_witness :
    (∃ e, dlookup "a" (syncProjectNodes (fun s => "#" ++ s) "p"
        [⟨"a", "x", "", 0⟩, ⟨"b", "  ", "doc", 0⟩]
        [("b", ⟨"p", "old", "", 0, "#old"⟩)]).1 = some e ∧
      e.projectId = "p") ∧
    dlookup "b" (syncProjectNodes (fun s => "#" ++ s) "p"
        [⟨"a", "x", "", 0⟩, ⟨"b", "  ", "doc", 0⟩]
        [("b", ⟨"p", "old", "", 0, "#old"⟩)]).1 = none :=
  have hh : ∀ c : String, ("#" ++ c : String) ≠ "" := fun c hc =>
    List.noConfusion (congrArg String.data hc)
  have hmain := sync_entries_exactly (fun s => "#" ++ s) hh "p"
    [⟨"a", "x", "", 0⟩, ⟨"b", "  ", "doc", 0⟩]
    [("b", ⟨"p", "old", "", 0, "#old"⟩)]
    (by unfold StoreWF; decide)
  ⟨(hmain.1 "a").mpr (by decide),
   hmain.2 "b" (by decide) ⟨⟨"p", "old", "", 0, "#old"⟩, by decide, rfl⟩⟩

/-! ### Chat context assembly (`routers/chat.py`, function `chat`)

The pipeline is embedded from the vector query onwards: similarity
results are an input (the vector backend is external), the merge of
rag / pinned / legacy ids follows lines 135-175, graph expansion calls
`get_connected_nodes` with the configured depth and the hard-coded cap
of 15, untagged expanded ids are tagged `graph` (lines 187-192), and the
per-node insight records mirror lines 199-236.  Prompt-text formatting
and the token estimate are not needed by any claim and are omitted.
`round(x, 3)` on floats is modelled at `ℚ` with integer rounding; no
claim depends on the numeric value of a similarity. -/

/-- One similarity-search result: an id with its cosine distance. -/
structure SearchResult where
  id : String
  distance : ℚ
deriving DecidableEq

/-- A canvas node dict as the chat router reads it: `hasData` is the
truthiness of `node.get("data")`, `label` is `data.get("label", "")`,
and the remaining fields are the other keys the router reads.  Node
dicts are modelled as non-empty mappings (they always carry an id). -/
structure PyNode where
  id : String
  nodeType : Option String
  hasData : Bool
  label : String
  sourceName : Option String
  sourcePdf : String
deriving DecidableEq

/-- `round(x, 3)` at rational precision. -/
def round3 (q : ℚ) : ℚ :=
  (round (q * 1000) : ℤ) / 1000

/-- `label[:80] + "..." if len(label) > 80 else label`. -/
def mkPreview (label : String) : String :=
  if 80 < pyLen label then pyTake label 80 ++ "..." else label

/-- One insight record (`NodeInsight`). -/
structure NodeInsight where
  nodeId : String
  source : String
  similarity : Option ℚ
  preview : String
deriving DecidableEq

/-- The mutable locals of the merge phase: `retrieved_ids`,
`node_sources`, `node_similarities`, `rag_node_count`,
`pinned_node_count`. -/
structure MergeState where
  retrieved : List String
  sources : List (String × String)
  sims : List (String × ℚ)
  ragCount : ℤ
  pinnedCount : ℤ
deriving DecidableEq

def initialMergeState : MergeState := ⟨[], [], [], 0, 0⟩

/-- The body of the rag-results loop (lines 147-152). -/
def ragInsert (st : MergeState) (r : SearchResult) : MergeState :=
  ⟨st.retrieved ++ [r.id], dictSet st.sources r.id "rag",
    dictSet st.sims r.id (round3 (1 - r.distance)), st.ragCount,
    st.pinnedCount⟩

/-- Step 1: similarity search for `auto` and `hybrid` modes;
`rag_node_count = len(retrieved_ids)` afterwards. -/
def ragStep (mode : String) (results : List SearchResult) : MergeState :=
  if mode = "auto" ∨ mode = "hybrid" then
    let st := results.foldl ragInsert initialMergeState
    ⟨st.retrieved, st.sources, st.sims, (st.retrieved.length : ℤ),
      st.pinnedCount⟩
  else initialMergeState

/-- The body of the pinned-ids loop (lines 158-167): add a new id tagged
`pinned`, or retag a rag-tagged id to `pinned` moving its count. -/
def pinnedOne (st : MergeState) (nodeId : String) : MergeState :=
  if nodeId ∉ st.retrieved then
    ⟨st.retrieved ++ [nodeId], dictSet st.sources nodeId "pinned", st.sims,
      st.ragCount, st.pinnedCount + 1⟩
  else if dlookup nodeId st.sources = some "rag" then
    ⟨st.retrieved, dictSet st.sources nodeId "pinned", st.sims,
      st.ragCount - 1, st.pinnedCount + 1⟩
  else st

/-- Step 2: pinned ids for `manual` and `hybrid` modes. -/
def pinnedStep (mode : String) (pinnedIds : List String)
    (st : MergeState) : MergeState :=
  if (mode = "manual" ∨ mode = "hybrid") ∧ pinnedIds ≠ [] then
    pinnedIds.foldl pinnedOne st
  else st

/-- The body of the legacy-ids loop (lines 171-175): only the
add-if-new branch exists in the source. -/
def legacyOne (st : MergeState) (nodeId : String) : MergeState :=
  if nodeId ∉ st.retrieved then
    ⟨st.retrieved ++ [nodeId], dictSet st.sources nodeId "pinned", st.sims,
      st.ragCount, st.pinnedCount + 1⟩
  else st

/-- Step 3: explicitly supplied legacy context ids. -/
def legacyStep (legacyIds : List String) (st : MergeState) : MergeState :=
  if legacyIds ≠ [] then legacyIds.foldl legacyOne st else st

/-- Steps 1-3 of the merge in source order. -/
def mergeSteps (mode : String) (results : List SearchResult)
    (pinnedIds legacyIds : List String) : MergeState :=
  legacyStep legacyIds (pinnedStep mode pinnedIds (ragStep mode results))

/-- One iteration of the graph-tagging loop (lines 189-192). -/
def graphTagStep (acc : List (String × String) × ℤ) (nodeId : String) :
    List (String × String) × ℤ :=
  if dlookup nodeId acc.1 = none then
    (dictSet acc.1 nodeId "graph", acc.2 + 1)
  else acc

/-- Lines 187-192: tag every expanded id that has no source yet as
`graph`, counting the newly tagged ids. -/
def graphTag (sources : List (String × String)) (expanded : List String) :
    List (String × String) × ℤ :=
  expanded.foldl graphTagStep (sources, 0)

/-- `node_lookup`, built from the request nodes, last binding wins. -/
def buildLookup (nodes : List PyNode) : List (String × PyNode) :=
  nodes.foldl (fun d n => dictSet d n.id n) []

/-- The body of the insight loop (lines 199-222): append one insight
when the node resolves (present in the lookup, truthy `data`, non-empty
label). -/
def detailStep (lookup : List (String × PyNode))
    (sources : List (String × String)) (sims : List (String × ℚ))
    (acc : List NodeInsight) (nodeId : String) : List NodeInsight :=
  match dlookup nodeId lookup with
  | some node =>
    if node.hasData ∧ node.label ≠ "" then
      acc ++ [⟨nodeId, (dlookup nodeId sources).getD "unknown",
        dlookup nodeId sims, mkPreview node.label⟩]
    else acc
  | none => acc

/-- Lines 199-222: one insight per expanded id whose node resolves. -/
def buildDetails (expanded : List String) (lookup : List (String × PyNode))
    (sources : List (String × String)) (sims : List (String × ℚ)) :
    List NodeInsight :=
  expanded.foldl (detailStep lookup sources sims) []

/-- The summary insights (`ChatInsights`), minus the prompt-text token
estimate. -/
structure ChatInsights where
  totalContextNodes : ℤ
  ragNodes : ℤ
  pinnedNodes : ℤ
  graphExpandedNodes : ℤ
  contextMode : String
  graphDepth : ℤ
  nodeDetails : List NodeInsight
deriving DecidableEq

/-- Everything the context-assembly phase of a chat request produces
that the claims speak about, including the intermediate merge state. -/
structure ChatOutcome where
  mergeState : MergeState
  expandedIds : List String
  sources : List (String × String)
  insights : ChatInsights
deriving DecidableEq

/-- The context-assembly phase of `chat` (lines 98-236): default the
mode, merge the three id sources, expand through the graph with the
configured depth and the hard-coded `max_nodes=15`, tag the remainder
`graph`, and build the insight records. -/
def assembleContext (ord : List String → List String) (mode : String)
    (results : List SearchResult) (pinnedIds legacyIds : List String)
    (edges : List Edge) (graphDepth : ℤ) (nodes : List PyNode) :
    ChatOutcome :=
  let mode₁ := if mode = "" then "auto" else mode
  let st := mergeSteps mode₁ results pinnedIds legacyIds
  let expanded := getConnectedNodes ord st.retrieved edges graphDepth 15
  let tg := graphTag st.sources expanded
  let details := buildDetails expanded (buildLookup nodes) tg.1 st.sims
  ⟨st, expanded, tg.1,
    ⟨(expanded.length : ℤ), st.ragCount, st.pinnedCount, tg.2, mode₁,
      graphDepth, details⟩⟩

/-! ### Lemmas about the merge phase -/

/-- Number of bindings carrying a given source value. -/
def countVal (d : List (String × String)) (v : String) : ℕ :=
  (d.filter (fun p => p.2 = v)).length

theorem dictSet_not_mem {α : Type} (d : List (String × α)) (k : String)
    (v : α) (hk : k ∉ d.map Prod.fst) : dictSet d k v = d ++ [(k, v)] := by
  induction d with
  | nil => simp [dictSet]
  | cons p rest ih =>
    have hp : ¬ p.1 = k := fun h => hk (by simp [h])
    have hk₁ : k ∉ rest.map Prod.fst := fun h => hk (by simp [h])
    simp [dictSet, hp, ih hk₁]

theorem dlookup_mem {α : Type} {d : List (String × α)} {k : String}
    {w : α} (h : dlookup k d = some w) : (k, w) ∈ d := by
  induction d with
  | nil => exact absurd h (by simp [dlookup])
  | cons p rest ih =>
    by_cases hp : k = p.1
    · rw [dlookup, if_pos hp] at h
      have hw : w = p.2 := (Option.some_inj.mp h).symm
      subst hw
      subst hp
      exact Prod.mk.eta ▸ List.mem_cons_self p rest
    · rw [dlookup, if_neg hp] at h
      exact List.mem_cons_of_mem p (ih h)

theorem mem_dictSet {α : Type} {d : List (String × α)} {k : String}
    {v : α} {q : String × α} (h : q ∈ dictSet d k v) :
    q = (k, v) ∨ q ∈ d := by
  induction d with
  | nil =>
    simp [dictSet] at h
    exact Or.inl h
  | cons p rest ih =>
    by_cases hp : p.1 = k
    · rw [dictSet, if_pos hp] at h
      rcases List.mem_cons.mp h with h₁ | h₁
      · exact Or.inl h₁
      · exact Or.inr (List.mem_cons_of_mem p h₁)
    · rw [dictSet, if_neg hp] at h
      rcases List.mem_cons.mp h with h₁ | h₁
      · exact Or.inr (h₁ ▸ List.mem_cons_self p rest)
      · rcases ih h₁ with h₂ | h₂
        · exact Or.inl h₂
        · exact Or.inr (List.mem_cons_of_mem p h₂)

theorem countVal_append (d : List (String × String)) (k v u : String) :
    countVal (d ++ [(k, v)]) u =
      countVal d u + (if v = u then 1 else 0) := by
  by_cases hv : v = u
  · simp [countVal, List.filter_append, hv]
  · simp [countVal, List.filter_append, hv]

theorem countVal_dictSet_replace (d : List (String × String))
    (k v w u : String) (hnd : (d.map Prod.fst).Nodup)
    (hw : dlookup k d = some w) :
    (countVal (dictSet d k v) u : ℤ) =
      (countVal d u : ℤ) + (if v = u then 1 else 0) -
        (if w = u then 1 else 0) := by
  induction d with
  | nil => exact absurd hw (by simp [dlookup])
  | cons p rest ih =>
    by_cases hp : p.1 = k
    · rw [dlookup, if_pos hp.symm] at hw
      have hwp : w = p.2 := (Option.some_inj.mp hw).symm
      rw [dictSet, if_pos hp]
      subst hwp
      by_cases hv : v = u <;> by_cases hw₂ : p.2 = u <;>
        simp [countVal, List.filter_cons, hv, hw₂]
    · rw [dlookup, if_neg (fun h => hp h.symm)] at hw
      have hnd₁ : (rest.map Prod.fst).Nodup := (List.nodup_cons.mp
        (by simpa using hnd)).2
      rw [dictSet, if_neg hp]
      have hih := ih hnd₁ hw
      simp only [countVal] at hih ⊢
      by_cases hw₂ : p.2 = u
      · simp only [List.filter_cons, hw₂, List.length_cons,
          decide_eq_true_eq, if_true]
        push_cast
        omega
      · simp only [List.filter_cons, decide_eq_true_eq, if_neg hw₂]
        exact hih

theorem countVal_partition (d : List (String × String))
    (h : ∀ q ∈ d, q.2 = "rag" ∨ q.2 = "pinned") :
    countVal d "rag" + countVal d "pinned" = d.length := by
  induction d with
  | nil => rfl
  | cons p rest ih =>
    have hrest := ih (fun q hq => h q (List.mem_cons_of_mem p hq))
    simp only [countVal] at hrest ⊢
    rcases h p (List.mem_cons_self p rest) with hp | hp
    · have hnp : ¬ (p.2 = "pinned") := by rw [hp]; decide
      simp only [List.filter_cons, decide_eq_true_eq, if_pos hp,
        if_neg hnp, List.length_cons]
      omega
    · have hnr : ¬ (p.2 = "rag") := by rw [hp]; decide
      simp only [List.filter_cons, decide_eq_true_eq, if_pos hp,
        if_neg hnr, List.length_cons]
      omega

/-- The invariant the merge phase maintains: the source map keys are
exactly the retrieved ids (both duplicate-free), the two counters count
the `rag` and `pinned` tags, and only those two tags occur. -/
structure MergeInv (st : MergeState) : Prop where
  keysNodup : (st.sources.map Prod.fst).Nodup
  retrievedNodup : st.retrieved.Nodup
  memIff : ∀ k : String, k ∈ st.sources.map Prod.fst ↔ k ∈ st.retrieved
  ragEq : st.ragCount = (countVal st.sources "rag" : ℤ)
  pinnedEq : st.pinnedCount = (countVal st.sources "pinned" : ℤ)
  valsOK : ∀ q ∈ st.sources, q.2 = "rag" ∨ q.2 = "pinned"

theorem initialMergeState_inv : MergeInv initialMergeState := by
  refine ⟨List.nodup_nil, List.nodup_nil, ?_, rfl, rfl, ?_⟩
  · intro k
    simp [initialMergeState]
  · intro q hq
    simp [initialMergeState] at hq

/-- The partial invariant along the rag loop (the counters are fixed
only after the loop). -/
structure RagInv (st : MergeState) : Prop where
  keysNodup : (st.sources.map Prod.fst).Nodup
  retrievedNodup : st.retrieved.Nodup
  memIff : ∀ k : String, k ∈ st.sources.map Prod.fst ↔ k ∈ st.retrieved
  valsRag : ∀ q ∈ st.sources, q.2 = "rag"

theorem ragFold_inv (results : List SearchResult) :
    ∀ st : MergeState, (results.map SearchResult.id).Nodup →
      (∀ r ∈ results, r.id ∉ st.retrieved) → RagInv st →
      RagInv (results.foldl ragInsert st) := by
  induction results with
  | nil => exact fun st _ _ h => h
  | cons r rest ih =>
    intro st hnd hout hinv
    have hrid : r.id ∉ st.retrieved := hout r (List.mem_cons_self r rest)
    have hkey : r.id ∉ st.sources.map Prod.fst :=
      fun h => hrid ((hinv.memIff r.id).mp h)
    have hnd₁ : (rest.map SearchResult.id).Nodup :=
      (List.nodup_cons.mp (by simpa using hnd)).2
    have hhead : r.id ∉ rest.map SearchResult.id :=
      (List.nodup_cons.mp (by simpa using hnd)).1
    rw [List.foldl_cons]
    apply ih (ragInsert st r) hnd₁
    · intro r₁ hr₁
      show r₁.id ∉ st.retrieved ++ [r.id]
      intro hmem
      rcases List.mem_append.mp hmem with h | h
      · exact hout r₁ (List.mem_cons_of_mem r hr₁) h
      · exact hhead (List.mem_singleton.mp h ▸
          List.mem_map.mpr ⟨r₁, hr₁, rfl⟩)
    · refine ⟨?_, ?_, ?_, ?_⟩
      · show ((dictSet st.sources r.id "rag").map Prod.fst).Nodup
        rw [dictSet_not_mem st.sources r.id "rag" hkey, List.map_append]
        exact append_singleton_nodup hinv.keysNodup hkey
      · exact append_singleton_nodup hinv.retrievedNodup hrid
      · intro k
        show k ∈ (dictSet st.sources r.id "rag").map Prod.fst ↔
          k ∈ st.retrieved ++ [r.id]
        rw [dictSet_not_mem st.sources r.id "rag" hkey]
        simp [hinv.memIff k]
      · intro q hq
        rcases mem_dictSet hq with h | h
        · rw [h]
        · exact hinv.valsRag q h

theorem ragFold_pinnedCount (results : List SearchResult) :
    ∀ st : MergeState,
      (results.foldl ragInsert st).pinnedCount = st.pinnedCount := by
  induction results with
  | nil => exact fun st => rfl
  | cons r rest ih => exact fun st => ih (ragInsert st r)

theorem countVal_all (d : List (String × String)) (v : String)
    (h : ∀ q ∈ d, q.2 = v) : countVal d v = d.length := by
  induction d with
  | nil => rfl
  | cons p rest ih =>
    have hp := h p (List.mem_cons_self p rest)
    simp only [countVal, List.filter_cons, decide_eq_true_eq, if_pos hp,
      List.length_cons]
    simp only [countVal] at ih
    rw [ih (fun q hq => h q (List.mem_cons_of_mem p hq))]

theorem countVal_none (d : List (String × String)) (v : String)
    (h : ∀ q ∈ d, q.2 ≠ v) : countVal d v = 0 := by
  induction d with
  | nil => rfl
  | cons p rest ih =>
    have hp := h p (List.mem_cons_self p rest)
    simp only [countVal, List.filter_cons, decide_eq_true_eq, if_neg hp]
    exact ih (fun q hq => h q (List.mem_cons_of_mem p hq))

theorem ragStep_inv (mode : String) (results : List SearchResult)
    (hres : (results.map SearchResult.id).Nodup) :
    MergeInv (ragStep mode results) := by
  unfold ragStep
  split
  · have hinv : RagInv (results.foldl ragInsert initialMergeState) :=
      ragFold_inv results initialMergeState hres
        (fun r _ => by simp [initialMergeState])
        ⟨List.nodup_nil, List.nodup_nil,
          by intro k; simp [initialMergeState],
          by intro q hq; simp [initialMergeState] at hq⟩
    have hlen : (results.foldl ragInsert initialMergeState).sources.length =
        (results.foldl ragInsert initialMergeState).retrieved.length := by
      have hperm : ((results.foldl ragInsert initialMergeState).sources.map
          Prod.fst).Perm (results.foldl ragInsert initialMergeState).retrieved := by
        rw [List.perm_ext_iff_of_nodup hinv.keysNodup hinv.retrievedNodup]
        exact hinv.memIff
      calc (results.foldl ragInsert initialMergeState).sources.length
          = ((results.foldl ragInsert initialMergeState).sources.map
              Prod.fst).length := by rw [List.length_map]
        _ = _ := hperm.length_eq
    refine ⟨hinv.keysNodup, hinv.retrievedNodup, hinv.memIff, ?_, ?_, ?_⟩
    · show ((results.foldl ragInsert initialMergeState).retrieved.length : ℤ) =
        (countVal (results.foldl ragInsert initialMergeState).sources "rag" : ℤ)
      rw [countVal_all _ "rag" hinv.valsRag, hlen]
    · show (results.foldl ragInsert initialMergeState).pinnedCount =
        (countVal (results.foldl ragInsert initialMergeState).sources
          "pinned" : ℤ)
      rw [countVal_none _ "pinned"
        (fun q hq => by rw [hinv.valsRag q hq]; decide)]
      rw [ragFold_pinnedCount results initialMergeState]
      rfl
    · exact fun q hq => Or.inl (hinv.valsRag q hq)
  · exact initialMergeState_inv

theorem add_pinned_inv {st : MergeState} (hinv : MergeInv st) (y : String)
    (hy : y ∉ st.retrieved) :
    MergeInv ⟨st.retrieved ++ [y], dictSet st.sources y "pinned", st.sims,
      st.ragCount, st.pinnedCount + 1⟩ := by
  have hkey : y ∉ st.sources.map Prod.fst :=
    fun h => hy ((hinv.memIff y).mp h)
  have happ : dictSet st.sources y "pinned" = st.sources ++ [(y, "pinned")] :=
    dictSet_not_mem st.sources y "pinned" hkey
  refine ⟨?_, append_singleton_nodup hinv.retrievedNodup hy, ?_, ?_, ?_, ?_⟩
  · show ((dictSet st.sources y "pinned").map Prod.fst).Nodup
    rw [happ, List.map_append]
    exact append_singleton_nodup hinv.keysNodup hkey
  · intro k
    show k ∈ (dictSet st.sources y "pinned").map Prod.fst ↔
      k ∈ st.retrieved ++ [y]
    rw [happ]
    simp [hinv.memIff k]
  · show st.ragCount = (countVal (dictSet st.sources y "pinned") "rag" : ℤ)
    rw [happ, countVal_append]
    simp [hinv.ragEq]
  · show st.pinnedCount + 1 =
      (countVal (dictSet st.sources y "pinned") "pinned" : ℤ)
    rw [happ, countVal_append]
    simp [hinv.pinnedEq]
  · intro q hq
    rcases mem_dictSet hq with h | h
    · rw [h]
      exact Or.inr rfl
    · exact hinv.valsOK q h

theorem pinnedOne_inv {st : MergeState} (hinv : MergeInv st) (y : String) :
    MergeInv (pinnedOne st y) := by
  unfold pinnedOne
  by_cases hy : y ∈ st.retrieved
  · rw [if_neg (not_not_intro hy)]
    by_cases hr : dlookup y st.sources = some "rag"
    · rw [if_pos hr]
      have hkeys : ((dictSet st.sources y "pinned").map Prod.fst).Nodup ∧
          ((dictSet st.sources y "pinned").map Prod.fst =
            st.sources.map Prod.fst) := by
        rw [dictSet_map_fst]
        rw [if_pos ((hinv.memIff y).mpr hy)]
        exact ⟨hinv.keysNodup, rfl⟩
      refine ⟨hkeys.1, hinv.retrievedNodup, ?_, ?_, ?_, ?_⟩
      · intro k
        show k ∈ (dictSet st.sources y "pinned").map Prod.fst ↔
          k ∈ st.retrieved
        rw [hkeys.2]
        exact hinv.memIff k
      · show st.ragCount - 1 =
          (countVal (dictSet st.sources y "pinned") "rag" : ℤ)
        rw [countVal_dictSet_replace st.sources y "pinned" "rag" "rag"
          hinv.keysNodup hr]
        simp [hinv.ragEq]
      · show st.pinnedCount + 1 =
          (countVal (dictSet st.sources y "pinned") "pinned" : ℤ)
        rw [countVal_dictSet_replace st.sources y "pinned" "rag" "pinned"
          hinv.keysNodup hr]
        simp [hinv.pinnedEq]
      · intro q hq
        rcases mem_dictSet hq with h | h
        · rw [h]
          exact Or.inr rfl
        · exact hinv.valsOK q h
    · rw [if_neg hr]
      exact hinv
  · rw [if_pos hy]
    exact add_pinned_inv hinv y hy

theorem legacyOne_inv {st : MergeState} (hinv : MergeInv st) (y : String) :
    MergeInv (legacyOne st y) := by
  unfold legacyOne
  by_cases hy : y ∈ st.retrieved
  · rw [if_neg (not_not_intro hy)]
    exact hinv
  · rw [if_pos hy]
    exact add_pinned_inv hinv y hy

theorem pinnedFold_inv (l : List String) :
    ∀ st : MergeState, MergeInv st → MergeInv (l.foldl pinnedOne st) := by
  induction l with
  | nil => exact fun st h => h
  | cons y rest ih => exact fun st h => ih (pinnedOne st y) (pinnedOne_inv h y)

theorem legacyFold_inv (l : List String) :
    ∀ st : MergeState, MergeInv st → MergeInv (l.foldl legacyOne st) := by
  induction l with
  | nil => exact fun st h => h
  | cons y rest ih => exact fun st h => ih (legacyOne st y) (legacyOne_inv h y)

theorem mergeSteps_inv (mode : String) (results : List SearchResult)
    (pinnedIds legacyIds : List String)
    (hres : (results.map SearchResult.id).Nodup) :
    MergeInv (mergeSteps mode results pinnedIds legacyIds) := by
  unfold mergeSteps legacyStep pinnedStep
  have h₁ := ragStep_inv mode results hres
  split
  · split
    · exact legacyFold_inv legacyIds _ (pinnedFold_inv pinnedIds _ h₁)
    · exact legacyFold_inv legacyIds _ h₁
  · split
    · exact pinnedFold_inv pinnedIds _ h₁
    · exact h₁

/-! ### Tag-tracking lemmas for the merge phase -/

theorem ragFold_lookup (results : List SearchResult) :
    ∀ (st : MergeState) (x : String),
      (x ∈ results.map SearchResult.id ∨
        dlookup x st.sources = some "rag") →
      dlookup x (results.foldl ragInsert st).sources = some "rag" := by
  induction results with
  | nil =>
    intro st x h
    rcases h with h | h
    · simp at h
    · exact h
  | cons r rest ih =>
    intro st x h
    rw [List.foldl_cons]
    apply ih (ragInsert st r) x
    by_cases hx : x = r.id
    · subst hx
      exact Or.inr (dlookup_dictSet_self st.sources r.id "rag")
    · rcases h with h | h
      · refine Or.inl ?_
        rcases List.mem_map.mp h with ⟨r₁, hr₁, hid⟩
        rcases List.mem_cons.mp hr₁ with h₃ | h₃
        · exact absurd (h₃ ▸ hid).symm hx
        · exact List.mem_map.mpr ⟨r₁, h₃, hid⟩
      · refine Or.inr ?_
        show dlookup x (dictSet st.sources r.id "rag") = some "rag"
        rw [dlookup_dictSet_ne st.sources r.id x "rag" hx]
        exact h

theorem pinnedOne_keeps {st : MergeState} (hinv : MergeInv st)
    (x y : String) (v : String)
    (hx : dlookup x st.sources = some v) (hv : v ≠ "rag") :
    dlookup x (pinnedOne st y).sources = some v := by
  have hxr : x ∈ st.retrieved :=
    (hinv.memIff x).mp ((dlookup_isSome st.sources x).mp (by rw [hx]; rfl))
  unfold pinnedOne
  by_cases hy : y ∈ st.retrieved
  · rw [if_neg (not_not_intro hy)]
    by_cases hr : dlookup y st.sources = some "rag"
    · rw [if_pos hr]
      have hne : x ≠ y := by
        intro h
        rw [h, hr] at hx
        exact hv (Option.some_inj.mp hx).symm
      show dlookup x (dictSet st.sources y "pinned") = some v
      rw [dlookup_dictSet_ne st.sources y x "pinned" hne]
      exact hx
    · rw [if_neg hr]
      exact hx
  · rw [if_pos hy]
    have hne : x ≠ y := fun h => hy (h ▸ hxr)
    show dlookup x (dictSet st.sources y "pinned") = some v
    rw [dlookup_dictSet_ne st.sources y x "pinned" hne]
    exact hx

theorem pinnedOne_self {st : MergeState} (hinv : MergeInv st) (x : String) :
    dlookup x (pinnedOne st x).sources = some "pinned" := by
  unfold pinnedOne
  by_cases hx : x ∈ st.retrieved
  · rw [if_neg (not_not_intro hx)]
    by_cases hr : dlookup x st.sources = some "rag"
    · rw [if_pos hr]
      exact dlookup_dictSet_self st.sources x "pinned"
    · rw [if_neg hr]
      have hsome : (dlookup x st.sources).isSome :=
        (dlookup_isSome st.sources x).mpr ((hinv.memIff x).mpr hx)
      cases hl : dlookup x st.sources with
      | none => rw [hl] at hsome; exact absurd hsome (by simp)
      | some v =>
        rcases hinv.valsOK (x, v) (dlookup_mem hl) with h | h
        · exact absurd (hl.trans (congrArg some h)) hr
        · exact congrArg some h
  · rw [if_pos hx]
    exact dlookup_dictSet_self st.sources x "pinned"

theorem pinnedFold_keeps (l : List String) :
    ∀ (st : MergeState), MergeInv st → ∀ (x v : String),
      dlookup x st.sources = some v → v ≠ "rag" →
      dlookup x (l.foldl pinnedOne st).sources = some v := by
  induction l with
  | nil => exact fun st _ x v hx _ => hx
  | cons y rest ih =>
    intro st hinv x v hx hv
    exact ih (pinnedOne st y) (pinnedOne_inv hinv y) x v
      (pinnedOne_keeps hinv x y v hx hv) hv

theorem pinnedFold_mem (l : List String) :
    ∀ (st : MergeState), MergeInv st → ∀ x ∈ l,
      dlookup x (l.foldl pinnedOne st).sources = some "pinned" := by
  induction l with
  | nil =>
    intro st _ x hx
    exact absurd hx (List.not_mem_nil x)
  | cons y rest ih =>
    intro st hinv x hx
    by_cases hxy : x = y
    · subst hxy
      exact pinnedFold_keeps rest (pinnedOne st x) (pinnedOne_inv hinv x)
        x "pinned" (pinnedOne_self hinv x) (by decide)
    · rcases List.mem_cons.mp hx with h | h
      · exact absurd h hxy
      · exact ih (pinnedOne st y) (pinnedOne_inv hinv y) x h

theorem legacyOne_keeps {st : MergeState} (hinv : MergeInv st)
    (x y v : String) (hx : dlookup x st.sources = some v) :
    dlookup x (legacyOne st y).sources = some v := by
  have hxr : x ∈ st.retrieved :=
    (hinv.memIff x).mp ((dlookup_isSome st.sources x).mp (by rw [hx]; rfl))
  unfold legacyOne
  by_cases hy : y ∈ st.retrieved
  · rw [if_neg (not_not_intro hy)]
    exact hx
  · rw [if_pos hy]
    have hne : x ≠ y := fun h => hy (h ▸ hxr)
    show dlookup x (dictSet st.sources y "pinned") = some v
    rw [dlookup_dictSet_ne st.sources y x "pinned" hne]
    exact hx

theorem legacyFold_keeps (l : List String) :
    ∀ (st : MergeState), MergeInv st → ∀ (x v : String),
      dlookup x st.sources = some v →
      dlookup x (l.foldl legacyOne st).sources = some v := by
  induction l with
  | nil => exact fun st _ x v hx => hx
  | cons y rest ih =>
    intro st hinv x v hx
    exact ih (legacyOne st y) (legacyOne_inv hinv y) x v
      (legacyOne_keeps hinv x y v hx)

theorem legacyOne_retrieved_sub {st : MergeState} (y x : String)
    (h : x ∈ (legacyOne st y).retrieved) :
    x ∈ st.retrieved ∨ x = y := by
  revert h
  unfold legacyOne
  split
  · intro h
    rcases List.mem_append.mp h with h₁ | h₁
    · exact Or.inl h₁
    · exact Or.inr (List.mem_singleton.mp h₁)
  · exact Or.inl

theorem legacyFold_mem (l : List String) :
    ∀ (st : MergeState), MergeInv st → ∀ x ∈ l, x ∉ st.retrieved →
      dlookup x (l.foldl legacyOne st).sources = some "pinned" := by
  induction l with
  | nil =>
    intro st _ x hx
    exact absurd hx (List.not_mem_nil x)
  | cons y rest ih =>
    intro st hinv x hx hxr
    by_cases hxy : x = y
    · subst hxy
      have hadd : dlookup x (legacyOne st x).sources = some "pinned" := by
        unfold legacyOne
        rw [if_pos hxr]
        exact dlookup_dictSet_self st.sources x "pinned"
      exact legacyFold_keeps rest (legacyOne st x) (legacyOne_inv hinv x)
        x "pinned" hadd
    · rcases List.mem_cons.mp hx with h | h
      · exact absurd h hxy
      · refine ih (legacyOne st y) (legacyOne_inv hinv y) x h ?_
        intro hmem
        rcases legacyOne_retrieved_sub y x hmem with h₁ | h₁
        · exact hxr h₁
        · exact hxy h₁

/-! ### Lemmas about the graph-tagging loop -/

theorem graphTagStep_pos {s : List (String × String)} {c : ℤ}
    {y : String} (hy : dlookup y s = none) :
    graphTagStep (s, c) y = (dictSet s y "graph", c + 1) := by
  unfold graphTagStep
  rw [if_pos hy]

theorem graphTagStep_neg {s : List (String × String)} {c : ℤ}
    {y : String} (hy : ¬ dlookup y s = none) :
    graphTagStep (s, c) y = (s, c) := by
  unfold graphTagStep
  rw [if_neg hy]

theorem graphTagFold_keeps (expanded : List String) :
    ∀ (s : List (String × String)) (c : ℤ) (x v : String),
      dlookup x s = some v →
      dlookup x (expanded.foldl graphTagStep (s, c)).1 = some v := by
  induction expanded with
  | nil => exact fun s c x v h => h
  | cons y rest ih =>
    intro s c x v h
    rw [List.foldl_cons]
    by_cases hy : dlookup y s = none
    · rw [graphTagStep_pos hy]
      apply ih _ _ x v
      have hne : x ≠ y := by
        intro he
        rw [he, hy] at h
        exact Option.noConfusion h
      rw [dlookup_dictSet_ne s y x "graph" hne]
      exact h
    · rw [graphTagStep_neg hy]
      exact ih s c x v h

theorem graphTagFold_covers (expanded : List String) :
    ∀ (s : List (String × String)) (c : ℤ) (x : String), x ∈ expanded →
      (dlookup x (expanded.foldl graphTagStep (s, c)).1).isSome := by
  induction expanded with
  | nil =>
    intro s c x hx
    exact absurd hx (List.not_mem_nil x)
  | cons y rest ih =>
    intro s c x hx
    rw [List.foldl_cons]
    by_cases hxy : x = y
    · subst hxy
      by_cases hy : dlookup x s = none
      · rw [graphTagStep_pos hy]
        rw [graphTagFold_keeps rest _ _ x "graph"
          (dlookup_dictSet_self s x "graph")]
        rfl
      · rw [graphTagStep_neg hy]
        cases hl : dlookup x s with
        | none => exact absurd hl hy
        | some v =>
          rw [graphTagFold_keeps rest s c x v hl]
          rfl
    · rcases List.mem_cons.mp hx with h | h
      · exact absurd h hxy
      · exact ih _ _ x h

theorem graphTagFold_vals (expanded : List String) :
    ∀ (s : List (String × String)) (c : ℤ),
      (∀ q ∈ s, q.2 = "rag" ∨ q.2 = "pinned" ∨ q.2 = "graph") →
      ∀ q ∈ (expanded.foldl graphTagStep (s, c)).1,
        q.2 = "rag" ∨ q.2 = "pinned" ∨ q.2 = "graph" := by
  induction expanded with
  | nil => exact fun s c h => h
  | cons y rest ih =>
    intro s c h
    rw [List.foldl_cons]
    by_cases hy : dlookup y s = none
    · rw [graphTagStep_pos hy]
      apply ih
      intro q hq
      rcases mem_dictSet hq with h₁ | h₁
      · rw [h₁]
        exact Or.inr (Or.inr rfl)
      · exact h q h₁
    · rw [graphTagStep_neg hy]
      exact ih s c h

theorem graphTagFold_count (expanded : List String) :
    ∀ (s : List (String × String)) (c : ℤ), expanded.Nodup →
      (expanded.foldl graphTagStep (s, c)).2 =
        c + ((expanded.filter
          (fun i => (dlookup i s).isNone)).length : ℤ) := by
  induction expanded with
  | nil =>
    intro s c _
    simp
  | cons y rest ih =>
    intro s c hnd
    have hynotin : y ∉ rest := (List.nodup_cons.mp hnd).1
    have hndr : rest.Nodup := (List.nodup_cons.mp hnd).2
    rw [List.foldl_cons]
    by_cases hy : dlookup y s = none
    · rw [graphTagStep_pos hy]
      rw [ih (dictSet s y "graph") (c + 1) hndr]
      have hfilter : rest.filter
          (fun i => (dlookup i (dictSet s y "graph")).isNone) =
          rest.filter (fun i => (dlookup i s).isNone) := by
        apply List.filter_congr
        intro z hz
        have hne : z ≠ y := fun h => hynotin (h ▸ hz)
        rw [dlookup_dictSet_ne s y z "graph" hne]
      rw [hfilter]
      have hhead : (dlookup y s).isNone := by
        rw [hy]
        rfl
      simp only [List.filter_cons, hhead, if_pos, List.length_cons]
      push_cast
      ring
    · rw [graphTagStep_neg hy]
      rw [ih s c hndr]
      have hhead : ¬ ((dlookup y s).isNone = true) := by
        cases hl : dlookup y s with
        | none => exact absurd hl hy
        | some v => simp
      simp only [List.filter_cons, if_neg hhead]

/-! ### Lemmas about the insight records -/

theorem detailStep_none {lookup : List (String × PyNode)}
    {sources : List (String × String)} {sims : List (String × ℚ)}
    {acc : List NodeInsight} {nodeId : String}
    (hl : dlookup nodeId lookup = none) :
    detailStep lookup sources sims acc nodeId = acc := by
  unfold detailStep
  rw [hl]

theorem detailStep_some {lookup : List (String × PyNode)}
    {sources : List (String × String)} {sims : List (String × ℚ)}
    {acc : List NodeInsight} {nodeId : String} {node : PyNode}
    (hl : dlookup nodeId lookup = some node) :
    detailStep lookup sources sims acc nodeId =
      if node.hasData = true ∧ node.label ≠ "" then
        acc ++ [⟨nodeId, (dlookup nodeId sources).getD "unknown",
          dlookup nodeId sims, mkPreview node.label⟩]
      else acc := by
  unfold detailStep
  rw [hl]

theorem detailFold_char (lookup : List (String × PyNode))
    (sources : List (String × String)) (sims : List (String × ℚ))
    (expanded : List String) :
    ∀ (acc : List NodeInsight),
      ∀ ins ∈ expanded.foldl (detailStep lookup sources sims) acc,
        ins ∈ acc ∨ ∃ nodeId ∈ expanded,
          ins.source = (dlookup nodeId sources).getD "unknown" := by
  induction expanded with
  | nil => exact fun acc ins h => Or.inl h
  | cons y rest ih =>
    intro acc ins h
    rw [List.foldl_cons] at h
    rcases ih (detailStep lookup sources sims acc y) ins h with h₁ | h₁
    · cases hl : dlookup y lookup with
      | none =>
        rw [detailStep_none hl] at h₁
        exact Or.inl h₁
      | some node =>
        rw [detailStep_some hl] at h₁
        by_cases hc : node.hasData = true ∧ node.label ≠ ""
        · rw [if_pos hc] at h₁
          rcases List.mem_append.mp h₁ with h₂ | h₂
          · exact Or.inl h₂
          · refine Or.inr ⟨y, List.mem_cons_self y rest, ?_⟩
            rw [List.mem_singleton.mp h₂]
        · rw [if_neg hc] at h₁
          exact Or.inl h₁
    · rcases h₁ with ⟨nodeId, hn, hs⟩
      exact Or.inr ⟨nodeId, List.mem_cons_of_mem y hn, hs⟩

theorem ragFold_vals (results : List SearchResult) :
    ∀ st : MergeState,
      (∀ q ∈ st.sources, q.2 = "rag" ∨ q.2 = "pinned") →
      ∀ q ∈ (results.foldl ragInsert st).sources,
        q.2 = "rag" ∨ q.2 = "pinned" := by
  induction results with
  | nil => exact fun st h => h
  | cons r rest ih =>
    intro st h
    apply ih
    intro q hq
    rcases mem_dictSet hq with h₁ | h₁
    · rw [h₁]
      exact Or.inl rfl
    · exact h q h₁

theorem pinnedOne_vals {st : MergeState}
    (h : ∀ q ∈ st.sources, q.2 = "rag" ∨ q.2 = "pinned") (y : String) :
    ∀ q ∈ (pinnedOne st y).sources, q.2 = "rag" ∨ q.2 = "pinned" := by
  unfold pinnedOne
  split
  · intro q hq
    rcases mem_dictSet hq with h₁ | h₁
    · rw [h₁]
      exact Or.inr rfl
    · exact h q h₁
  · split
    · intro q hq
      rcases mem_dictSet hq with h₁ | h₁
      · rw [h₁]
        exact Or.inr rfl
      · exact h q h₁
    · exact h

theorem legacyOne_vals {st : MergeState}
    (h : ∀ q ∈ st.sources, q.2 = "rag" ∨ q.2 = "pinned") (y : String) :
    ∀ q ∈ (legacyOne st y).sources, q.2 = "rag" ∨ q.2 = "pinned" := by
  unfold legacyOne
  split
  · intro q hq
    rcases mem_dictSet hq with h₁ | h₁
    · rw [h₁]
      exact Or.inr rfl
    · exact h q h₁
  · exact h

theorem mergeSteps_vals (mode : String) (results : List SearchResult)
    (pinnedIds legacyIds : List String) :
    ∀ q ∈ (mergeSteps mode results pinnedIds legacyIds).sources,
      q.2 = "rag" ∨ q.2 = "pinned" := by
  have hrag : ∀ q ∈ (ragStep mode results).sources,
      q.2 = "rag" ∨ q.2 = "pinned" := by
    unfold ragStep
    split
    · exact ragFold_vals results initialMergeState
        (by intro q hq; simp [initialMergeState] at hq)
    · intro q hq
      simp [initialMergeState] at hq
  have hpinned : ∀ q ∈ (pinnedStep mode pinnedIds
      (ragStep mode results)).sources, q.2 = "rag" ∨ q.2 = "pinned" := by
    unfold pinnedStep
    split
    · have : ∀ l : List String, ∀ st : MergeState,
          (∀ q ∈ st.sources, q.2 = "rag" ∨ q.2 = "pinned") →
          ∀ q ∈ (l.foldl pinnedOne st).sources,
            q.2 = "rag" ∨ q.2 = "pinned" := by
        intro l
        induction l with
        | nil => exact fun st h => h
        | cons y rest ih =>
          exact fun st h => ih (pinnedOne st y) (pinnedOne_vals h y)
      exact this pinnedIds _ hrag
    · exact hrag
  unfold mergeSteps legacyStep
  split
  · have : ∀ l : List String, ∀ st : MergeState,
        (∀ q ∈ st.sources, q.2 = "rag" ∨ q.2 = "pinned") →
        ∀ q ∈ (l.foldl legacyOne st).sources,
          q.2 = "rag" ∨ q.2 = "pinned" := by
      intro l
      induction l with
      | nil => exact fun st h => h
      | cons y rest ih =>
        exact fun st h => ih (legacyOne st y) (legacyOne_vals h y)
    exact this legacyIds _ hpinned
  · exact hpinned

/-! ### Projections of the assembled context -/

theorem assembleContext_mergeState (ord : List String → List String)
    (mode : String) (results : List SearchResult)
    (pinnedIds legacyIds : List String) (edges : List Edge) (depth : ℤ)
    (nodes : List PyNode) :
    (assembleContext ord mode results pinnedIds legacyIds edges depth
      nodes).mergeState =
      mergeSteps (if mode = "" then "auto" else mode) results pinnedIds
        legacyIds := rfl

theorem assembleContext_expandedIds (ord : List String → List String)
    (mode : String) (results : List SearchResult)
    (pinnedIds legacyIds : List String) (edges : List Edge) (depth : ℤ)
    (nodes : List PyNode) :
    (assembleContext ord mode results pinnedIds legacyIds edges depth
      nodes).expandedIds =
      getConnectedNodes ord
        (assembleContext ord mode results pinnedIds legacyIds edges depth
          nodes).mergeState.retrieved edges depth 15 := rfl

theorem assembleContext_sources (ord : List String → List String)
    (mode : String) (results : List SearchResult)
    (pinnedIds legacyIds : List String) (edges : List Edge) (depth : ℤ)
    (nodes : List PyNode) :
    (assembleContext ord mode results pinnedIds legacyIds edges depth
      nodes).sources =
      (graphTag
        (assembleContext ord mode results pinnedIds legacyIds edges depth
          nodes).mergeState.sources
        (assembleContext ord mode results pinnedIds legacyIds edges depth
          nodes).expandedIds).1 := rfl

theorem assembleContext_insights (ord : List String → List String)
    (mode : String) (results : List SearchResult)
    (pinnedIds legacyIds : List String) (edges : List Edge) (depth : ℤ)
    (nodes : List PyNode) :
    (assembleContext ord mode results pinnedIds legacyIds edges depth
      nodes).insights =
      ⟨((assembleContext ord mode results pinnedIds legacyIds edges depth
          nodes).expandedIds.length : ℤ),
        (assembleContext ord mode results pinnedIds legacyIds edges depth
          nodes).mergeState.ragCount,
        (assembleContext ord mode results pinnedIds legacyIds edges depth
          nodes).mergeState.pinnedCount,
        (graphTag
          (assembleContext ord mode results pinnedIds legacyIds edges depth
            nodes).mergeState.sources
          (assembleContext ord mode results pinnedIds legacyIds edges depth
            nodes).expandedIds).2,
        (if mode = "" then "auto" else mode), depth,
        buildDetails
          (assembleContext ord mode results pinnedIds legacyIds edges depth
            nodes).expandedIds
          (buildLookup nodes)
          (assembleContext ord mode results pinnedIds legacyIds edges depth
            nodes).sources
          (assembleContext ord mode results pinnedIds legacyIds edges depth
            nodes).mergeState.sims⟩ := rfl

/-! ### Claim theorems about the chat pipeline -/

/-- C10: every insight record emitted for a chat request has its source
field in `{rag, pinned, graph}`; the `unknown` fallback is never
produced, because every expanded id missing a tag is tagged `graph`
before the insight records are built. -/
theorem node_insight_source_valid (ord : List String → List String)
    (mode : String) (results : List SearchResult)
    (pinnedIds legacyIds : List String) (edges : List Edge) (depth : ℤ)
    (nodes : List PyNode) :
    ∀ ins ∈ (assembleContext ord mode results pinnedIds legacyIds edges
        depth nodes).insights.nodeDetails,
      ins.source = "rag" ∨ ins.source = "pinned" ∨ ins.source = "graph" := by
  intro ins hins
  rw [assembleContext_insights] at hins
  simp only [] at hins
  unfold buildDetails at hins
  rcases detailFold_char (buildLookup nodes) _ _ _ [] ins hins with
    h | ⟨nodeId, hn, hs⟩
  · exact absurd h (List.not_mem_nil ins)
  · rw [assembleContext_sources] at hs
    unfold graphTag at hs
    have hcov := graphTagFold_covers
      (assembleContext ord mode results pinnedIds legacyIds edges depth
        nodes).expandedIds
      (assembleContext ord mode results pinnedIds legacyIds edges depth
        nodes).mergeState.sources 0 nodeId hn
    cases hl : dlookup nodeId
        ((assembleContext ord mode results pinnedIds legacyIds edges depth
          nodes).expandedIds.foldl graphTagStep
          ((assembleContext ord mode results pinnedIds legacyIds edges
            depth nodes).mergeState.sources, 0)).1 with
    | none =>
      rw [hl] at hcov
      exact absurd hcov (by simp)
    | some v =>
      have hval := graphTagFold_vals
        (assembleContext ord mode results pinnedIds legacyIds edges depth
          nodes).expandedIds
        (assembleContext ord mode results pinnedIds legacyIds edges depth
          nodes).mergeState.sources 0
        (by
          intro q hq
          rw [assembleContext_mergeState] at hq
          rcases mergeSteps_vals _ results pinnedIds legacyIds q hq with
            h | h
          · exact Or.inl h
          · exact Or.inr (Or.inl h))
        (nodeId, v) (dlookup_mem hl)
      rw [hs, hl]
      exact hval

/-- Witness for C10: a concrete request whose insight list contains a
graph-tagged record, checked against the valid source set. -/
theorem node_insight_source_valid_witness :
    (⟨"b", "graph", none, "beta"⟩ : NodeInsight) ∈
      (assembleContext id "manual" [] ["a"] [] [⟨"a", "b"⟩] 1
        [⟨"a", some "snippetNode", true, "alpha", none, "doc.pdf"⟩,
          ⟨"b", some "noteNode", true, "beta", none, ""⟩]).insights.nodeDetails ∧
    (("graph" : String) = "rag" ∨ ("graph" : String) = "pinned" ∨
      ("graph" : String) = "graph") :=
  ⟨by decide,
    node_insight_source_valid id "manual" [] ["a"] [] [⟨"a", "b"⟩] 1
      [⟨"a", some "snippetNode", true, "alpha", none, "doc.pdf"⟩,
        ⟨"b", some "noteNode", true, "beta", none, ""⟩]
      ⟨"b", "graph", none, "beta"⟩ (by decide)⟩

theorem pinnedStep_inv (mode : String) (pinnedIds : List String)
    {st : MergeState} (h : MergeInv st) :
    MergeInv (pinnedStep mode pinnedIds st) := by
  unfold pinnedStep
  split
  · exact pinnedFold_inv pinnedIds st h
  · exact h

theorem legacyStep_keeps {st : MergeState} (hinv : MergeInv st)
    (l : List String) (x v : String) (hx : dlookup x st.sources = some v) :
    dlookup x (legacyStep l st).sources = some v := by
  unfold legacyStep
  split
  · exact legacyFold_keeps l st hinv x v hx
  · exact hx

theorem legacyFold_ragCount (l : List String) :
    ∀ st : MergeState, (l.foldl legacyOne st).ragCount = st.ragCount := by
  induction l with
  | nil => exact fun st => rfl
  | cons y rest ih =>
    intro st
    rw [List.foldl_cons, ih (legacyOne st y)]
    unfold legacyOne
    split
    · rfl
    · rfl

/-- C6 counterexample: in auto mode a legacy context id that the
similarity search already returned keeps the tag `rag` and the pinned
count stays 0 — the code has no retag branch for legacy ids, so the
count does not move from the rag bucket to the pinned bucket. -/
theorem legacy_retag_counterexample :
    dlookup "x" (assembleContext id "auto" [⟨"x", 0⟩] [] ["x"] [] 1
      []).sources = some "rag" ∧
    (assembleContext id "auto" [⟨"x", 0⟩] [] ["x"] [] 1
      []).insights.pinnedNodes = 0 ∧
    (assembleContext id "auto" [⟨"x", 0⟩] [] ["x"] [] 1
      []).insights.ragNodes = 1 := by
  refine ⟨?_, ?_, ?_⟩ <;> decide

/-- C6 (amended): legacy context ids are add-only: a legacy id not
already merged is added tagged `pinned`; an id already present keeps its
existing tag (in particular a rag-tagged id stays `rag`), and legacy
processing never changes the rag count. -/
theorem legacy_ids_add_only (ord : List String → List String)
    (mode : String) (results : List SearchResult)
    (pinnedIds legacyIds : List String) (edges : List Edge) (depth : ℤ)
    (nodes : List PyNode)
    (hres : (results.map SearchResult.id).Nodup) :
    (∀ x ∈ legacyIds,
      x ∉ (pinnedStep (if mode = "" then "auto" else mode) pinnedIds
        (ragStep (if mode = "" then "auto" else mode) results)).retrieved →
      dlookup x (assembleContext ord mode results pinnedIds legacyIds
        edges depth nodes).sources = some "pinned") ∧
    (∀ x : String,
      dlookup x (pinnedStep (if mode = "" then "auto" else mode) pinnedIds
        (ragStep (if mode = "" then "auto" else mode) results)).sources =
        some "rag" →
      dlookup x (assembleContext ord mode results pinnedIds legacyIds
        edges depth nodes).sources = some "rag") ∧
    (assembleContext ord mode results pinnedIds legacyIds edges depth
      nodes).mergeState.ragCount =
      (pinnedStep (if mode = "" then "auto" else mode) pinnedIds
        (ragStep (if mode = "" then "auto" else mode) results)).ragCount := by
  have hinv₂ : MergeInv (pinnedStep (if mode = "" then "auto" else mode)
      pinnedIds (ragStep (if mode = "" then "auto" else mode) results)) :=
    pinnedStep_inv _ pinnedIds (ragStep_inv _ results hres)
  refine ⟨?_, ?_, ?_⟩
  · intro x hx hxr
    have hmerge : dlookup x (mergeSteps (if mode = "" then "auto" else mode)
        results pinnedIds legacyIds).sources = some "pinned" := by
      unfold mergeSteps legacyStep
      rw [if_pos (List.ne_nil_of_mem hx)]
      exact legacyFold_mem legacyIds _ hinv₂ x hx hxr
    rw [assembleContext_sources]
    unfold graphTag
    rw [assembleContext_mergeState]
    exact graphTagFold_keeps _ _ 0 x "pinned" hmerge
  · intro x hx
    have hmerge : dlookup x (mergeSteps (if mode = "" then "auto" else mode)
        results pinnedIds legacyIds).sources = some "rag" := by
      unfold mergeSteps
      exact legacyStep_keeps hinv₂ legacyIds x "rag" hx
    rw [assembleContext_sources]
    unfold graphTag
    rw [assembleContext_mergeState]
    exact graphTagFold_keeps _ _ 0 x "rag" hmerge
  · rw [assembleContext_mergeState]
    unfold mergeSteps legacyStep
    split
    · exact legacyFold_ragCount legacyIds _
    · rfl

/-- Witness for the amended C6: in auto mode with search result `x` and
legacy ids `[x, y]`, the fresh id `y` ends tagged `pinned`, the
rag-tagged `x` stays `rag`, and the rag count is unchanged. -/
theorem legacy_ids_add_only_witness :
    dlookup "y" (assembleContext id "auto" [⟨"x", 0⟩] [] ["x", "y"] [] 1
      []).sources = some "pinned" ∧
    dlookup "x" (assembleContext id "auto" [⟨"x", 0⟩] [] ["x", "y"] [] 1
      []).sources = some "rag" ∧
    (assembleContext id "auto" [⟨"x", 0⟩] [] ["x", "y"] [] 1
      []).mergeState.ragCount =
      (pinnedStep "auto" [] (ragStep "auto" [⟨"x", 0⟩])).ragCount :=
  have hmain := legacy_ids_add_only id "auto" [⟨"x", 0⟩] [] ["x", "y"] []
    1 [] (by decide)
  ⟨hmain.1 "y" (by decide) (by decide),
    hmain.2.1 "x" (by decide),
    hmain.2.2⟩

theorem length_filter_add {α : Type} (l : List α) (p : α → Bool) :
    (l.filter p).length + (l.filter (fun x => ! p x)).length = l.length := by
  induction l with
  | nil => rfl
  | cons a rest ih =>
    cases hp : p a with
    | true =>
      simp [List.filter_cons, hp]
      omega
    | false =>
      simp [List.filter_cons, hp]
      omega

/-- C2 counterexample: the claim fails as stated on two points.  In
`auto` mode a request can carry pinned ids, the merge ignores them, and
an id returned by both the search and the pinned list stays tagged
`rag`.  And with 16 pinned ids in `manual` mode the expansion truncates
to the cap 15 while the counters still count all 16 merged ids, so
`rag + pinned + graph = 16 ≠ 15 = total_context_nodes`. -/
theorem merge_priority_counts_counterexample :
    dlookup "x" (assembleContext id "auto" [⟨"x", 0⟩] ["x"] [] [] 1
      []).sources = some "rag" ∧
    (assembleContext id "manual" []
        ["p01", "p02", "p03", "p04", "p05", "p06", "p07", "p08", "p09",
          "p10", "p11", "p12", "p13", "p14", "p15", "p16"] [] [] 1
        []).insights.ragNodes +
      (assembleContext id "manual" []
        ["p01", "p02", "p03", "p04", "p05", "p06", "p07", "p08", "p09",
          "p10", "p11", "p12", "p13", "p14", "p15", "p16"] [] [] 1
        []).insights.pinnedNodes +
      (assembleContext id "manual" []
        ["p01", "p02", "p03", "p04", "p05", "p06", "p07", "p08", "p09",
          "p10", "p11", "p12", "p13", "p14", "p15", "p16"] [] [] 1
        []).insights.graphExpandedNodes = 16 ∧
    (assembleContext id "manual" []
        ["p01", "p02", "p03", "p04", "p05", "p06", "p07", "p08", "p09",
          "p10", "p11", "p12", "p13", "p14", "p15", "p16"] [] [] 1
        []).insights.totalContextNodes = 15 := by
  refine ⟨?_, ?_, ?_⟩ <;> decide

/-- C2 (amended): in hybrid mode an id returned by both the similarity
search (whose result ids are distinct) and the pinned list ends tagged
`pinned`; and whenever every merged id survives graph expansion (no
truncation), the per-source counts satisfy
`rag_count + pinned_count + graph_count = total_context_nodes`. -/
theorem merge_priority_counts (ord : List String → List String)
    (mode : String) (results : List SearchResult)
    (pinnedIds legacyIds : List String) (edges : List Edge) (depth : ℤ)
    (nodes : List PyNode) (hord : PermPolicy ord)
    (hres : (results.map SearchResult.id).Nodup)
    (hsub : ∀ x ∈ (assembleContext ord mode results pinnedIds legacyIds
        edges depth nodes).mergeState.retrieved,
      x ∈ (assembleContext ord mode results pinnedIds legacyIds edges
        depth nodes).expandedIds) :
    (mode = "hybrid" → ∀ r ∈ results, r.id ∈ pinnedIds →
      dlookup r.id (assembleContext ord mode results pinnedIds legacyIds
        edges depth nodes).sources = some "pinned") ∧
    (assembleContext ord mode results pinnedIds legacyIds edges depth
        nodes).insights.ragNodes +
      (assembleContext ord mode results pinnedIds legacyIds edges depth
        nodes).insights.pinnedNodes +
      (assembleContext ord mode results pinnedIds legacyIds edges depth
        nodes).insights.graphExpandedNodes =
      (assembleContext ord mode results pinnedIds legacyIds edges depth
        nodes).insights.totalContextNodes := by
  have hm : MergeInv (mergeSteps (if mode = "" then "auto" else mode)
      results pinnedIds legacyIds) :=
    mergeSteps_inv _ results pinnedIds legacyIds hres
  constructor
  · intro hmode r hr hrp
    have hmq : (if mode = "" then "auto" else mode) = "hybrid" := by
      rw [hmode]
      decide
    have hrag : dlookup r.id (ragStep "hybrid" results).sources =
        some "rag" := by
      unfold ragStep
      rw [if_pos (Or.inr rfl)]
      exact ragFold_lookup results initialMergeState r.id
        (Or.inl (List.mem_map.mpr ⟨r, hr, rfl⟩))
    have hpin : dlookup r.id (pinnedStep "hybrid" pinnedIds
        (ragStep "hybrid" results)).sources = some "pinned" := by
      unfold pinnedStep
      rw [if_pos ⟨Or.inr rfl, List.ne_nil_of_mem hrp⟩]
      exact pinnedFold_mem pinnedIds _ (ragStep_inv "hybrid" results hres)
        r.id hrp
    have hmerge : dlookup r.id (mergeSteps "hybrid" results pinnedIds
        legacyIds).sources = some "pinned" := by
      unfold mergeSteps
      exact legacyStep_keeps (pinnedStep_inv "hybrid" pinnedIds
        (ragStep_inv "hybrid" results hres)) legacyIds r.id "pinned" hpin
    rw [assembleContext_sources]
    unfold graphTag
    rw [assembleContext_mergeState, hmq]
    exact graphTagFold_keeps _ _ 0 r.id "pinned" hmerge
  · have hsub₁ : ∀ x ∈ (mergeSteps (if mode = "" then "auto" else mode)
        results pinnedIds legacyIds).retrieved,
        x ∈ getConnectedNodes ord
          (mergeSteps (if mode = "" then "auto" else mode) results
            pinnedIds legacyIds).retrieved edges depth 15 := hsub
    show (mergeSteps (if mode = "" then "auto" else mode) results
        pinnedIds legacyIds).ragCount +
      (mergeSteps (if mode = "" then "auto" else mode) results pinnedIds
        legacyIds).pinnedCount +
      (graphTag (mergeSteps (if mode = "" then "auto" else mode) results
          pinnedIds legacyIds).sources
        (getConnectedNodes ord
          (mergeSteps (if mode = "" then "auto" else mode) results
            pinnedIds legacyIds).retrieved edges depth 15)).2 =
      ((getConnectedNodes ord
        (mergeSteps (if mode = "" then "auto" else mode) results
          pinnedIds legacyIds).retrieved edges depth 15).length : ℤ)
    set M := mergeSteps (if mode = "" then "auto" else mode) results
      pinnedIds legacyIds with hMdef
    set E := getConnectedNodes ord M.retrieved edges depth 15 with hEdef
    have hEnodup : E.Nodup :=
      (getConnectedNodes_nodup_le_aux ord hord M.retrieved edges depth 15
        hm.retrievedNodup).1
    have hkeysSub : ∀ k ∈ M.sources.map Prod.fst, k ∈ E :=
      fun k hk => hsub₁ k ((hm.memIff k).mp hk)
    have hperm : (E.filter
        (fun i => (dlookup i M.sources).isSome)).Perm
        (M.sources.map Prod.fst) := by
      rw [List.perm_ext_iff_of_nodup (hEnodup.filter _) hm.keysNodup]
      intro a
      rw [List.mem_filter]
      constructor
      · rintro ⟨_, hs⟩
        exact (dlookup_isSome M.sources a).mp hs
      · intro ha
        exact ⟨hkeysSub a ha, (dlookup_isSome M.sources a).mpr ha⟩
    have hlen₁ : (E.filter
        (fun i => (dlookup i M.sources).isSome)).length =
        M.sources.length := by
      rw [hperm.length_eq, List.length_map]
    have hcnt : (graphTag M.sources E).2 =
        0 + ((E.filter (fun i => (dlookup i M.sources).isNone)).length :
          ℤ) := by
      unfold graphTag
      exact graphTagFold_count E M.sources 0 hEnodup
    have hfsplit : (E.filter
          (fun i => (dlookup i M.sources).isNone)).length +
        (E.filter (fun i => (dlookup i M.sources).isSome)).length =
        E.length := by
      have hgen := length_filter_add E
        (fun i => (dlookup i M.sources).isNone)
      have hpq : ∀ i ∈ E, (! (dlookup i M.sources).isNone) =
          (dlookup i M.sources).isSome := by
        intro i _
        cases dlookup i M.sources <;> rfl
      rwa [List.filter_congr hpq] at hgen
    have hpart : countVal M.sources "rag" + countVal M.sources "pinned" =
        M.sources.length := countVal_partition M.sources hm.valsOK
    rw [hm.ragEq, hm.pinnedEq, hcnt]
    omega

/-- Witness for the amended C2: a hybrid request where the search and
pinned list overlap on `r1` and nothing is truncated. -/
theorem merge_priority_counts_witness :
    dlookup "r1" (assembleContext id "hybrid" [⟨"r1", 0⟩] ["r1", "p1"] []
      [] 1 []).sources = some "pinned" ∧
    (assembleContext id "hybrid" [⟨"r1", 0⟩] ["r1", "p1"] [] [] 1
        []).insights.ragNodes +
      (assembleContext id "hybrid" [⟨"r1", 0⟩] ["r1", "p1"] [] [] 1
        []).insights.pinnedNodes +
      (assembleContext id "hybrid" [⟨"r1", 0⟩] ["r1", "p1"] [] [] 1
        []).insights.graphExpandedNodes =
      (assembleContext id "hybrid" [⟨"r1", 0⟩] ["r1", "p1"] [] [] 1
        []).insights.totalContextNodes :=
  have hmain := merge_priority_counts id "hybrid" [⟨"r1", 0⟩]
    ["r1", "p1"] [] [] 1 [] (fun l => List.Perm.refl l) (by decide)
    (by decide)
  ⟨hmain.1 rfl ⟨"r1", 0⟩ (by decide) (by decide), hmain.2⟩

/-- C1: the final ordered context list is not the merged ids followed by
the graph-discovered ids: the source returns `list(visited)` of a Python
set, whose iteration order is implementation defined.  Under the
admissible reversal order the pipeline returns `[b, a]` for merged ids
`[a]` and discovery order `[b]`, while the identity order returns
`[a, b]` — the same request yields different orders under different
(hash-seed dependent) set orders. -/
theorem context_order_not_merge_then_discovery :
    PermPolicy (id : List String → List String) ∧
    PermPolicy (List.reverse : List String → List String) ∧
    (assembleContext List.reverse "manual" [] ["a"] [] [⟨"a", "b"⟩] 1
      []).mergeState.retrieved = ["a"] ∧
    (assembleContext List.reverse "manual" [] ["a"] [] [⟨"a", "b"⟩] 1
      []).expandedIds = ["b", "a"] ∧
    (assembleContext id "manual" [] ["a"] [] [⟨"a", "b"⟩] 1
      []).expandedIds = ["a", "b"] ∧
    (["b", "a"] : List String) ≠ ["a"] ++ ["b"] :=
  ⟨fun l => List.Perm.refl l, fun l => List.reverse_perm l, by decide,
    by decide, by decide, by decide⟩

/-! ### Citation extraction (`routers/chat.py` lines 292-304)

`re.findall` collects the digit strings of every `\[(\d+)\]` match;
Python then iterates the *set* of those strings (two spellings of the
same number, such as `1` and `01`, stay distinct) and appends a citation
for each one that lands in range and resolves.  The embedding
deduplicates the match list keeping one fixed order; every property
claimed is membership-based and therefore insensitive to the set
iteration order.  The loop body is total, mirroring that the extractor
never raises on malformed or absent markers. -/

/-- The scanner behind `scanMarkers`, structurally recursive on a fuel
argument; every step consumes at least one character, so fuel equal to
the text length never runs out. -/
def scanMarkersAux : ℕ → List Char → List (List Char)
  | 0, _ => []
  | _, [] => []
  | fuel + 1, c :: rest =>
    if c = '[' ∧ rest.takeWhile Char.isDigit ≠ [] ∧
        (rest.drop (rest.takeWhile Char.isDigit).length).head? =
          some ']' then
      rest.takeWhile Char.isDigit ::
        scanMarkersAux fuel
          (rest.drop (rest.takeWhile Char.isDigit).length).tail
    else scanMarkersAux fuel rest

/-- The digit strings of the matches of `\[(\d+)\]`, left to right. -/
def scanMarkers (l : List Char) : List (List Char) :=
  scanMarkersAux l.length l

/-- `int()` on a non-empty digit string. -/
def digitsToNat (ds : List Char) : ℕ :=
  ds.foldl (fun a c => 10 * a + (c.toNat - 48)) 0

/-- A citation record (`Citation`). -/
structure Citation where
  nodeId : String
  preview : String
deriving DecidableEq

/-- The body of the citation loop: bounds-check the zero-based index
`int(num_str) - 1`, resolve the node, and build the 100-character
preview; out-of-range numbers and unresolvable nodes yield nothing. -/
def citeOne (expandedIds : List String) (lookup : List (String × PyNode))
    (ds : List Char) : Option Citation :=
  if 0 ≤ (digitsToNat ds : ℤ) - 1 ∧
      (digitsToNat ds : ℤ) - 1 < (expandedIds.length : ℤ) then
    match dlookup (expandedIds.getD ((digitsToNat ds : ℤ) - 1).toNat "")
        lookup with
    | some node =>
      if node.hasData then
        some ⟨expandedIds.getD ((digitsToNat ds : ℤ) - 1).toNat "",
          pyTake node.label 100⟩
      else none
    | none => none
  else none

/-- Lines 292-304: find the bracket markers, deduplicate the matched
number strings, and emit a citation for each valid resolvable one. -/
def extractCitations (text : String) (expandedIds : List String)
    (lookup : List (String × PyNode)) : List Citation :=
  (scanMarkers text.data).dedup.filterMap (citeOne expandedIds lookup)

theorem citeOne_char (expandedIds : List String)
    (lookup : List (String × PyNode)) (ds : List Char) :
    citeOne expandedIds lookup ds =
      if 1 ≤ digitsToNat ds ∧ digitsToNat ds ≤ expandedIds.length then
        match dlookup (expandedIds.getD (digitsToNat ds - 1) "")
            lookup with
        | some node =>
          if node.hasData then
            some ⟨expandedIds.getD (digitsToNat ds - 1) "",
              pyTake node.label 100⟩
          else none
        | none => none
      else none := by
  unfold citeOne
  by_cases h : 1 ≤ digitsToNat ds ∧ digitsToNat ds ≤ expandedIds.length
  · have hz : 0 ≤ (digitsToNat ds : ℤ) - 1 ∧
        (digitsToNat ds : ℤ) - 1 < (expandedIds.length : ℤ) := by omega
    have ht : ((digitsToNat ds : ℤ) - 1).toNat = digitsToNat ds - 1 := by
      omega
    rw [if_pos hz, if_pos h, ht]
  · have hz : ¬ (0 ≤ (digitsToNat ds : ℤ) - 1 ∧
        (digitsToNat ds : ℤ) - 1 < (expandedIds.length : ℤ)) := by omega
    rw [if_neg hz, if_neg h]

/-- C7: every emitted citation arises from a bracket marker `[n]` with
`n` in `[1, len(ordered_ids)]` that resolves, and its node id is
`ordered_ids[n-1]` (soundness); every in-range marker whose node
resolves yields exactly that citation (completeness); and if every
marker is out of range, no citation is produced.  Out-of-range numbers
and unresolvable nodes are silently dropped, and the extractor is a
total function: it never raises on malformed or absent markers. -/
theorem citation_extraction_sound (text : String)
    (expandedIds : List String) (lookup : List (String × PyNode)) :
    (∀ c ∈ extractCitations text expandedIds lookup,
      ∃ ds ∈ scanMarkers text.data,
        1 ≤ digitsToNat ds ∧ digitsToNat ds ≤ expandedIds.length ∧
        c.nodeId = expandedIds.getD (digitsToNat ds - 1) "" ∧
        ∃ node, dlookup c.nodeId lookup = some node ∧
          node.hasData = true ∧ c.preview = pyTake node.label 100) ∧
    (∀ ds ∈ scanMarkers text.data,
      1 ≤ digitsToNat ds → digitsToNat ds ≤ expandedIds.length →
      ∀ node,
        dlookup (expandedIds.getD (digitsToNat ds - 1) "") lookup =
          some node →
        node.hasData = true →
        (⟨expandedIds.getD (digitsToNat ds - 1) "",
          pyTake node.label 100⟩ : Citation) ∈
          extractCitations text expandedIds lookup) ∧
    ((∀ ds ∈ scanMarkers text.data,
        digitsToNat ds = 0 ∨ expandedIds.length < digitsToNat ds) →
      extractCitations text expandedIds lookup = []) := by
  refine ⟨?_, ?_, ?_⟩
  · intro c hc
    rcases List.mem_filterMap.mp hc with ⟨ds, hds, hsome⟩
    refine ⟨ds, List.mem_dedup.mp hds, ?_⟩
    rw [citeOne_char] at hsome
    by_cases h : 1 ≤ digitsToNat ds ∧ digitsToNat ds ≤ expandedIds.length
    · rw [if_pos h] at hsome
      cases hl : dlookup (expandedIds.getD (digitsToNat ds - 1) "")
          lookup with
      | none =>
        rw [hl] at hsome
        exact Option.noConfusion hsome
      | some node =>
        rw [hl] at hsome
        have hsome₂ : (if node.hasData = true then
            some (⟨expandedIds.getD (digitsToNat ds - 1) "",
              pyTake node.label 100⟩ : Citation) else none) =
            some c := hsome
        by_cases hd : node.hasData
        · rw [if_pos hd] at hsome₂
          have hceq := Option.some_inj.mp hsome₂
          refine ⟨h.1, h.2, ?_, node, ?_, hd, ?_⟩
          · rw [← hceq]
          · rw [← hceq]
            exact hl
          · rw [← hceq]
        · rw [if_neg hd] at hsome₂
          exact Option.noConfusion hsome₂
    · rw [if_neg h] at hsome
      exact Option.noConfusion hsome
  · intro ds hds h₁ h₂ node hl hd
    apply List.mem_filterMap.mpr
    refine ⟨ds, List.mem_dedup.mpr hds, ?_⟩
    rw [citeOne_char, if_pos ⟨h₁, h₂⟩, hl]
    show (if node.hasData = true then
      some (⟨expandedIds.getD (digitsToNat ds - 1) "",
        pyTake node.label 100⟩ : Citation) else none) = _
    rw [if_pos hd]
  · intro hout
    unfold extractCitations
    rw [List.filterMap_eq_nil_iff]
    intro ds hds
    rw [citeOne_char]
    rcases hout ds (List.mem_dedup.mp hds) with h | h
    · rw [if_neg (by omega)]
    · rw [if_neg (by omega)]

/-- Witness for C7: the marker `[1]` in a concrete response resolves to
the first ordered id with its preview; the theorem is applied at that
input. -/
theorem citation_extraction_sound_witness :
    (⟨"a", "hello"⟩ : Citation) ∈
      extractCitations "See [1] and [7] and [x]" ["a", "b"]
        [("a", ⟨"a", some "snippetNode", true, "hello", none, ""⟩)] :=
  (citation_extraction_sound "See [1] and [7] and [x]" ["a", "b"]
    [("a", ⟨"a", some "snippetNode", true, "hello", none, ""⟩)]).2.1
    ['1'] (by decide) (by decide) (by decide)
    ⟨"a", some "snippetNode", true, "hello", none, ""⟩ (by decide)
    (by decide)

end PaperLoom
